import Mathlib

/-!
Verification of the mesh-generation core of `rusty-cage` (`src/mesh.rs`).

The development shallowly embeds the three mesh-generation routines:

* `calculate_tangents_bitangents` (tangent/bitangent solver),
* `Mesh::quad` (planar quad generator),
* `Mesh::icosphere` (icosahedron subdivision, UV seam splitting, scaling,
  packing).

Geometry is modelled over `ℝ` (Rust `f32` arithmetic idealized as exact real
arithmetic).  The UV seam pass only compares and adds texture coordinates, so
it is stated polymorphically over a linear ordered field; concrete witnesses
instantiate it at `ℚ` where everything is decidable.  Rust panics
(out-of-bounds slice indexing) are modelled by `Option`: a function returns
`none` exactly when the Rust code would panic.
-/

namespace RustyCage

/-- Three-component vector, as `cgmath::Vector3<f32>` idealized over `ℝ`. -/
abbrev V3R := ℝ × ℝ × ℝ

/-- Componentwise addition of three-vectors. -/
def add3 (a b : V3R) : V3R := (a.1 + b.1, a.2.1 + b.2.1, a.2.2 + b.2.2)

/-- Componentwise subtraction of three-vectors. -/
def sub3 (a b : V3R) : V3R := (a.1 - b.1, a.2.1 - b.2.1, a.2.2 - b.2.2)

/-- Scalar multiple of a three-vector. -/
def smul3 (r : ℝ) (a : V3R) : V3R := (r * a.1, r * a.2.1, r * a.2.2)

/-- Dot product of three-vectors. -/
def dot3 (a b : V3R) : ℝ := a.1 * b.1 + a.2.1 * b.2.1 + a.2.2 * b.2.2

/-- Euclidean length of a three-vector. -/
noncomputable def norm3 (a : V3R) : ℝ := Real.sqrt (dot3 a a)

/-- cgmath `InnerSpace::normalize`: `v * (1 / v.magnitude())`. -/
noncomputable def normalize3 (a : V3R) : V3R := smul3 (1 / norm3 a) a

/-- Two-component vector, as `cgmath::Vector2<f32>` idealized over `ℝ`. -/
abbrev V2R := ℝ × ℝ

/-- Componentwise subtraction of two-vectors. -/
def sub2 (a b : V2R) : V2R := (a.1 - b.1, a.2 - b.2)

/-- In-place update of index `i` of a list, as `l[i] = f(l[i])` on a Rust
`Vec`.  Out-of-range indices leave the list unchanged; every call site below
is guarded by an earlier bounds-checked lookup on a list of the same length,
so the out-of-range case never arises where the Rust code would panic. -/
def updAt {β : Type} : List β → ℕ → (β → β) → List β
  | [], _, _ => []
  | x :: xs, 0, f => f x :: xs
  | x :: xs, n + 1, f => x :: updAt xs n f

/-- The body of the triangle loop of `calculate_tangents_bitangents` for one
chunk `(i0, i1, i2)`: solve the edge/UV system, accumulate the resulting
tangent and bitangent into all three vertices and bump their incidence
counters.  An out-of-range index value panics in Rust at `positions[i]`,
modelled by the fallible lookups. -/
noncomputable def tbStep (ps : List V3R) (us : List V2R) (i0 i1 i2 : ℕ)
    (acc : List (V3R × V3R)) (cnt : List ℕ) :
    Option (List (V3R × V3R) × List ℕ) := do
  let p0 ← ps[i0]?
  let p1 ← ps[i1]?
  let p2 ← ps[i2]?
  let u0 ← us[i0]?
  let u1 ← us[i1]?
  let u2 ← us[i2]?
  let deltaPos1 := sub3 p1 p0
  let deltaPos2 := sub3 p2 p0
  let deltaUv1 := sub2 u1 u0
  let deltaUv2 := sub2 u2 u0
  let r := 1 / (deltaUv1.1 * deltaUv2.2 - deltaUv1.2 * deltaUv2.1)
  let tangent := smul3 r (sub3 (smul3 deltaUv2.2 deltaPos1) (smul3 deltaUv1.2 deltaPos2))
  let bitangent := smul3 r (sub3 (smul3 deltaUv1.1 deltaPos2) (smul3 deltaUv2.1 deltaPos1))
  let acc1 := updAt acc i0 (fun tb => (add3 tb.1 tangent, tb.2))
  let acc2 := updAt acc1 i1 (fun tb => (add3 tb.1 tangent, tb.2))
  let acc3 := updAt acc2 i2 (fun tb => (add3 tb.1 tangent, tb.2))
  let acc4 := updAt acc3 i0 (fun tb => (tb.1, add3 tb.2 bitangent))
  let acc5 := updAt acc4 i1 (fun tb => (tb.1, add3 tb.2 bitangent))
  let acc6 := updAt acc5 i2 (fun tb => (tb.1, add3 tb.2 bitangent))
  let cnt1 := updAt (updAt (updAt cnt i0 (· + 1)) i1 (· + 1)) i2 (· + 1)
  some (acc6, cnt1)

/-- The triangle loop of `calculate_tangents_bitangents`
(`for c in indices.chunks(3)`), threading the accumulated tangent/bitangent
pairs `acc` and the incidence counters `cnt`.  A final chunk of length 1 or 2
makes the Rust code read `c[1]` or `c[2]` out of bounds (panic), hence the
catch-all `none`. -/
noncomputable def calcTBloop (ps : List V3R) (us : List V2R) :
    List ℕ → List (V3R × V3R) → List ℕ → Option (List (V3R × V3R) × List ℕ)
  | i0 :: i1 :: i2 :: rest, acc, cnt => do
      let (acc', cnt') ← tbStep ps us i0 i1 i2 acc cnt
      calcTBloop ps us rest acc' cnt'
  | [], acc, cnt => some (acc, cnt)
  | _, _, _ => none

/-- Initial accumulator: one zero tangent/bitangent pair per vertex. -/
def initAcc (n : ℕ) : List (V3R × V3R) :=
  List.replicate n (((0 : ℝ), 0, 0), ((0 : ℝ), 0, 0))

/-- Initial incidence counters: `(0..positions.len()).collect::<Vec<_>>()`,
i.e. vertex `i` starts at `i` — not at a constant. -/
def trianglesIncludedInit (n : ℕ) : List ℕ := List.range n

/-- The averaging pass: `computed[i] = (computed[i] * (1.0 / n)).normalize()`
for both tangent and bitangent, `n` the incidence counter of vertex `i`. -/
noncomputable def avgNormalize (acc : List (V3R × V3R)) (cnt : List ℕ) :
    List (V3R × V3R) :=
  List.zipWith
    (fun (tb : V3R × V3R) (n : ℕ) =>
      (normalize3 (smul3 (1 / (n : ℝ)) tb.1), normalize3 (smul3 (1 / (n : ℝ)) tb.2)))
    acc cnt

/-- `calculate_tangents_bitangents` (mesh.rs:65-119): accumulate per-triangle
tangents/bitangents into every vertex of the triangle, then divide by the
incidence counter and normalize. -/
noncomputable def calculate_tangents_bitangents (ps : List V3R) (us : List V2R)
    (indices : List ℕ) : Option (List (V3R × V3R)) := do
  let (acc, cnt) ← calcTBloop ps us indices (initAcc ps.length)
    (trianglesIncludedInit ps.length)
  some (avgNormalize acc cnt)

/-- A packed vertex (struct `MeshVertex` in mesh.rs:15-21): the five
attributes uploaded per vertex. -/
structure MeshVertex where
  position : V3R
  tex_coords : V2R
  normal : V3R
  tangent : V3R
  bitangent : V3R

/-- The host-side result of a generator call: the packed vertex list, the
optional index list (present iff the call was indexed), and the element count
used by the draw call. -/
structure MeshData where
  vertices : List MeshVertex
  indexList : Option (List ℕ)
  num_elements : ℕ

/-- The packing step shared by both generators (the final
`if use_indices { .. } else { .. }` of `Mesh::quad` and `Mesh::icosphere`):
indexed packing emits one vertex per position (`for i in 0..positions.len()`)
plus the index buffer; unindexed packing emits one vertex per index slot
(`for idx in 0..indices.len()`) and no index buffer.  `mk i` builds the
packed vertex of original vertex `i` (fallible: `positions[i]` etc. panic
when out of range). -/
def packMesh (mk : ℕ → Option MeshVertex) (n : ℕ) (indices : List ℕ) :
    Bool → Option MeshData
  | true => do
      let vertices ← (List.range n).mapM mk
      some ⟨vertices, some indices, indices.length⟩
  | false => do
      let vertices ← indices.mapM mk
      some ⟨vertices, none, vertices.length⟩

/-- The quad's corner positions (mesh.rs:134-138), centered at the origin in
the XY plane. -/
noncomputable def quadPositions (width height : ℝ) : List V3R :=
  [(width * -(1 / 2 : ℝ), height * -(1 / 2 : ℝ), 0),
   (width * (1 / 2 : ℝ), height * -(1 / 2 : ℝ), 0),
   (width * (1 / 2 : ℝ), height * (1 / 2 : ℝ), 0),
   (width * -(1 / 2 : ℝ), height * (1 / 2 : ℝ), 0)]

/-- The quad's texture coordinates (mesh.rs:140-144). -/
noncomputable def quadTexCoords : List V2R := [(0, 0), (1, 0), (1, 1), (0, 1)]

/-- The quad's constant normal `(0.0, 0.0, 1.0)`. -/
noncomputable def quadNormal : V3R := ((0 : ℝ), 0, 1)

/-- The quad's two-triangle index list `vec![0, 1, 2, 2, 3, 0]`. -/
def quadIndices : List ℕ := [0, 1, 2, 2, 3, 0]

/-- The packed vertex of quad vertex `i` (constant normal). -/
noncomputable def quadVertex (ps : List V3R) (ts : List V2R) (cvs : List (V3R × V3R))
    (i : ℕ) : Option MeshVertex := do
  let p ← ps[i]?
  let t ← ts[i]?
  let cv ← cvs[i]?
  some ⟨p, t, quadNormal, cv.1, cv.2⟩

/-- `Mesh::quad` (mesh.rs:128-211), host side: corner positions and UVs, the
fixed index list, the shared tangent solve, then packing.  The GPU buffer
creation is outside the model.  Note there is no validation of `width` or
`height` anywhere in the function. -/
noncomputable def quadMeshData (width height : ℝ) (useIndices : Bool) :
    Option MeshData := do
  let computed ← calculate_tangents_bitangents (quadPositions width height)
    quadTexCoords quadIndices
  packMesh (quadVertex (quadPositions width height) quadTexCoords computed)
    (quadPositions width height).length quadIndices useIndices

/-- `sqrt5 = 5.0f32.sqrt()` (mesh.rs:269). -/
noncomputable def sqrt5 : ℝ := Real.sqrt 5

/-- The golden ratio `phi = (1.0 + sqrt5) * 0.5` (mesh.rs:270). -/
noncomputable def phi : ℝ := (1 + sqrt5) * (1 / 2)

/-- `inv_norm = 1.0 / (phi * phi + 1.0).sqrt()` (mesh.rs:271). -/
noncomputable def invNorm : ℝ := 1 / Real.sqrt (phi * phi + 1)

/-- The 12 vertices of the unit icosahedron (mesh.rs:273-285). -/
noncomputable def basePositions : List V3R :=
  [smul3 invNorm (-1, phi, 0), smul3 invNorm (1, phi, 0),
   smul3 invNorm (0, 1, -phi), smul3 invNorm (0, 1, phi),
   smul3 invNorm (-phi, 0, -1), smul3 invNorm (-phi, 0, 1),
   smul3 invNorm (phi, 0, -1), smul3 invNorm (phi, 0, 1),
   smul3 invNorm (0, -1, -phi), smul3 invNorm (0, -1, phi),
   smul3 invNorm (-1, -phi, 0), smul3 invNorm (1, -phi, 0)]

/-- The fixed 20-triangle icosahedron connectivity (mesh.rs:287-307). -/
def baseIndices : List ℕ :=
  [0, 1, 2, 0, 3, 1, 0, 4, 5, 1, 7, 6, 1, 6, 2, 1, 3, 7,
   0, 2, 4, 0, 5, 3, 2, 6, 8, 2, 8, 4, 3, 5, 9, 3, 9, 7,
   11, 6, 7, 10, 5, 4, 10, 4, 8, 10, 9, 5, 11, 8, 6, 11, 7, 9,
   10, 8, 11, 10, 11, 9]

/-- One round of the tessellation loop body (mesh.rs:311-345): walk the old
index list triangle by triangle (the loop bound `size / 12` with
`size = 4 * indices.len()` is exactly the number of complete chunks of 3),
append the three normalized edge midpoints of each triangle
(`i1_2 = positions.len()` and the next two slots, with no midpoint sharing
between neighboring triangles), and emit the four subdivided triangles in the
source's push order. -/
noncomputable def subdivideChunks :
    List ℕ → List V3R → Option (List V3R × List ℕ)
  | i1 :: i2 :: i3 :: rest, ps => do
      let i12 := ps.length
      let i23 := i12 + 1
      let i13 := i12 + 2
      let v1 ← ps[i1]?
      let v2 ← ps[i2]?
      let v3 ← ps[i3]?
      let ps1 := ps ++ [normalize3 (add3 v1 v2), normalize3 (add3 v2 v3),
        normalize3 (add3 v1 v3)]
      let (ps2, idxRest) ← subdivideChunks rest ps1
      some (ps2,
        [i1, i12, i13, i2, i23, i12, i3, i13, i23, i12, i23, i13] ++ idxRest)
  | _, ps => some (ps, [])

/-- The subdivision state after `it` rounds of the `for _it in 0..iterations`
loop, starting from the base icosahedron. -/
noncomputable def subdivN : ℕ → Option (List V3R × List ℕ)
  | 0 => some (basePositions, baseIndices)
  | n + 1 => do
      let (ps, idx) ← subdivN n
      subdivideChunks idx ps

section

variable {α : Type} [LinearOrderedField α] {P : Type}

/-- The per-triangle seam detection loop (mesh.rs:357-384): walk the index
list in chunks of 3; for each of the three vertex pairs of a triangle, in the
source's order `(t2,t0)`, `(t1,t0)`, `(t2,t1)`, if the two `u` coordinates
differ by more than 0.5, push the index chosen by the `t.x < 0.5` test onto
`indices_to_split`.  The pass is polymorphic in the scalar field (the source
uses `f32`) and an incomplete final chunk panics at `c[1]`/`c[2]`.  -/
def seamDetectLoop (uvs : List (α × α)) : List ℕ → Option (List ℕ)
  | c0 :: c1 :: c2 :: rest => do
      let t0 ← uvs[c0]?
      let t1 ← uvs[c1]?
      let t2 ← uvs[c2]?
      let m1 : List ℕ :=
        if |t2.1 - t0.1| > 1 / 2 then (if t0.1 < 1 / 2 then [c0] else [c2])
        else []
      let m2 : List ℕ :=
        if |t1.1 - t0.1| > 1 / 2 then (if t0.1 < 1 / 2 then [c0] else [c1])
        else []
      let m3 : List ℕ :=
        if |t2.1 - t1.1| > 1 / 2 then (if t1.1 < 1 / 2 then [c1] else [c2])
        else []
      let ms ← seamDetectLoop uvs rest
      some (m1 ++ (m2 ++ (m3 ++ ms)))
  | [] => some []
  | _ => none

/-- One iteration `j` of the redirect scan inside the split loop
(mesh.rs:394-402): if slot `j` currently holds the split vertex `i`, read the
other two slots of `j`'s triangle and redirect slot `j` to `newIndex` when
either referenced `u` coordinate exceeds 0.5 (the second texture lookup is
short-circuited by `||`). -/
def seamScanStep (i newIndex : ℕ) (uvs : List (α × α)) (idx : List ℕ)
    (j : ℕ) : Option (List ℕ) := do
  let v ← idx[j]?
  if v = i then do
    let n1 ← idx[(j + 1) % 3 + j / 3 * 3]?
    let n2 ← idx[(j + 2) % 3 + j / 3 * 3]?
    let u1 ← uvs[n1]?
    if u1.1 > 1 / 2 then
      some (idx.set j newIndex)
    else do
      let u2 ← uvs[n2]?
      if u2.1 > 1 / 2 then some (idx.set j newIndex) else some idx
  else
    some idx

/-- The full redirect scan `for j in 0..indices.len()` for one split vertex. -/
def seamScan (i newIndex : ℕ) (uvs : List (α × α)) (idx : List ℕ) :
    Option (List ℕ) :=
  (List.range idx.length).foldlM (seamScanStep i newIndex uvs) idx

/-- One iteration of the split loop (mesh.rs:387-403) for marked vertex `i`:
append a duplicate of position `i` and its UV shifted by `+1.0` in `u`, then
run the redirect scan with the duplicate's index `positions.len() - 1`. -/
def seamSplitOne (st : List P × List (α × α) × List ℕ) (i : ℕ) :
    Option (List P × List (α × α) × List ℕ) := do
  let (ps, uvs, idx) := st
  let position ← ps[i]?
  let texCoord ← uvs[i]?
  let ps1 := ps ++ [position]
  let uvs1 := uvs ++ [(texCoord.1 + 1, texCoord.2 + 0)]
  let newIndex := ps1.length - 1
  let idx1 ← seamScan i newIndex uvs1 idx
  some (ps1, uvs1, idx1)

/-- The whole split pass (`for idx in indices_to_split.iter()`): process the
marked vertices in order, threading the position/UV/index state. -/
def seamSplitAll (st : List P × List (α × α) × List ℕ) (marks : List ℕ) :
    Option (List P × List (α × α) × List ℕ) :=
  marks.foldlM seamSplitOne st

/-- Restatement of the detection rule in the spec's vocabulary (the
refinement target for the detection pass, following the spec's words, not the
source): a vertex pair whose `u` coordinates differ by more than 0.5
contributes the vertex with the *smaller* `u` value. -/
def specMarkPair (uvs : List (α × α)) (p q : ℕ) : Option (List ℕ) := do
  let up ← uvs[p]?
  let uq ← uvs[q]?
  some (if |uq.1 - up.1| > 1 / 2 then [if up.1 < uq.1 then p else q] else [])

/-- The spec-worded detection pass: for every triangle, the pairs
`(c0,c2)`, `(c0,c1)`, `(c1,c2)` each contribute their smaller-`u` vertex when
the pair straddles the seam. -/
def specDetectLoop (uvs : List (α × α)) : List ℕ → Option (List ℕ)
  | c0 :: c1 :: c2 :: rest => do
      let m1 ← specMarkPair uvs c0 c2
      let m2 ← specMarkPair uvs c0 c1
      let m3 ← specMarkPair uvs c1 c2
      let ms ← specDetectLoop uvs rest
      some (m1 ++ (m2 ++ (m3 ++ ms)))
  | [] => some []
  | _ => none

/-- The redirect condition of the split scan at slot `j`, stated over an
index list and a UV list: one of the other two slots of `j`'s triangle
currently references a `u` coordinate greater than 0.5. -/
def redirCond (uvs : List (α × α)) (idx : List ℕ) (j : ℕ) : Prop :=
  ∃ n1 n2 u1 u2, idx[(j + 1) % 3 + j / 3 * 3]? = some n1 ∧
    idx[(j + 2) % 3 + j / 3 * 3]? = some n2 ∧ uvs[n1]? = some u1 ∧
    uvs[n2]? = some u2 ∧ (1 / 2 < u1.1 ∨ 1 / 2 < u2.1)

/-- Within every chunk of three, the index values are pairwise distinct. -/
@[reducible] def TriDistinct (idx : List ℕ) : Prop :=
  ∀ j1, j1 < idx.length → ∀ j2, j2 < idx.length → j1 ≠ j2 →
    j1 / 3 = j2 / 3 → idx[j1]? ≠ idx[j2]?

/-- Triangle `k` of the index list is "hot": one of its slots references a
`u` coordinate greater than 0.5. -/
def HotTri (uvs : List (α × α)) (idx : List ℕ) (k : ℕ) : Prop :=
  ∃ s, s < 3 ∧ ∃ v u, idx[3 * k + s]? = some v ∧ uvs[v]? = some u ∧
    1 / 2 < u.1

/-- The seam-safety side condition in a decidable phrasing (over `List.getD`
so that a concrete instance evaluates): in every triangle that touches the
seam (some corner's `u` exceeds 1/2), each marked corner's `u` lies at least
1/2 below each unmarked corner's `u`. -/
@[reducible] def SeamSafe (uvs : List (α × α)) (idx ms : List ℕ) : Prop :=
  ∀ k, k < idx.length / 3 →
    (∃ s, s < 3 ∧ 1 / 2 < (uvs.getD (idx.getD (3 * k + s) 0) (0, 0)).1) →
    ∀ sp, sp < 3 → ∀ sq, sq < 3 →
      idx.getD (3 * k + sp) 0 ∈ ms → idx.getD (3 * k + sq) 0 ∉ ms →
      (uvs.getD (idx.getD (3 * k + sp) 0) (0, 0)).1 + 1 / 2 ≤
        (uvs.getD (idx.getD (3 * k + sq) 0) (0, 0)).1

end

/-- The packed vertex of icosphere vertex `i` (per-vertex normal from the
`normals` clone of the pre-scale positions). -/
noncomputable def icoVertex (ps : List V3R) (ts : List V2R) (ns : List V3R)
    (cvs : List (V3R × V3R)) (i : ℕ) : Option MeshVertex := do
  let p ← ps[i]?
  let t ← ts[i]?
  let nv ← ns[i]?
  let cv ← cvs[i]?
  some ⟨p, t, nv, cv.1, cv.2⟩

/-- `Mesh::icosphere` (mesh.rs:262-479), host side.  The spherical-UV
computation (mesh.rs:347-355) applies `atan2` to every subdivided position;
those transcendental values are not exactly representable in the embedding,
so the generated UV list enters as the parameter `uvs` (one pair per
subdivided position) and every theorem below quantifies over it.  All other
phases follow the source: subdivision, seam detection, vertex splitting,
normals as a clone of the pre-scale positions, scaling by `radius`, the
shared tangent solve, and packing.  Note there is no validation of `radius`
or `iterations` anywhere in the function. -/
noncomputable def icosphereMeshData (radius : ℝ) (iterations : ℕ)
    (uvs : List V2R) (useIndices : Bool) : Option MeshData := do
  let (positions0, indices0) ← subdivN iterations
  let marks ← seamDetectLoop uvs indices0
  let (positions1, uvs1, indices1) ←
    seamSplitAll (positions0, uvs, indices0) marks
  let normals := positions1
  let positions2 := positions1.map (fun p => smul3 radius p)
  let computed ← calculate_tangents_bitangents positions2 uvs1 indices1
  packMesh (icoVertex positions2 uvs1 normals computed) positions2.length
    indices1 useIndices

/-- Per-triangle pairwise dot positivity: the invariant that keeps every
edge-midpoint sum `v_i + v_j` away from zero through the subdivision loop,
so the source's `normalize()` of a midpoint is well-defined and lands on the
unit sphere. -/
def TriDots (ps : List V3R) (idx : List ℕ) : Prop :=
  ∀ k a b c, idx[3 * k]? = some a → idx[3 * k + 1]? = some b →
    idx[3 * k + 2]? = some c →
    ∀ va vb vc, ps[a]? = some va → ps[b]? = some vb → ps[c]? = some vc →
      0 < dot3 va vb ∧ 0 < dot3 vb vc ∧ 0 < dot3 va vc

/-- A concrete UV list of the shape the iteration-0 icosphere produces
(mesh.rs:296-308): `45/512` plays the role of `atan2(1/φ-part) / (2π)`, a
small positive value below `1/8`, written as an exact rational so that the
seam pass can be evaluated by `decide`. -/
def icoUvs0 : List (ℚ × ℚ) :=
  [(0, 0), (1 / 2, 0), (3 / 4, 0), (1 / 4, 0), (1 - 45 / 512, 0),
   (45 / 512, 0), (1 / 2 + 45 / 512, 0), (1 / 2 - 45 / 512, 0), (3 / 4, 0),
   (1 / 4, 0), (0, 0), (1 / 2, 0)]

/-- The marks the detection pass reports on `icoUvs0` with the icosahedron's
index list. -/
def icoMarks0 : List ℕ := [0, 0, 5, 0, 0, 10, 5, 10, 10, 10]

/-- The iteration-0 UV list cast to ℝ (a valid value for the pipeline's
`uvs` parameter at `iterations = 0`). -/
noncomputable def icoUvs0R : List V2R :=
  icoUvs0.map (fun u => ((u.1 : ℝ), (u.2 : ℝ)))

/-- The spec's wording of the incidence-counter initialization (§4.3): every
vertex's counter starts at 1.  Refinement target written from the spec's
words; the source (mesh.rs:73) initializes the list to
`(0..positions.len()).collect()` instead. -/
def specCounterInit (n : ℕ) : List ℕ := List.replicate n 1

/-- Reduction of an `Option` do-bind on an already-successful lookup; used to
step the fallible definitions below once a lookup has been rewritten to
`some`. -/
theorem someBind {α β : Type} (a : α) (f : α → Option β) :
    (do let x ← some a; f x) = f a := rfl

theorem noneBind {β γ : Type} (f : β → Option γ) :
    (do let x ← (none : Option β); f x) = none := rfl

theorem updAt_length {β : Type} (l : List β) (i : ℕ) (f : β → β) :
    (updAt l i f).length = l.length := by
  induction l generalizing i with
  | nil => rfl
  | cons x xs ih => cases i with
    | zero => rfl
    | succ n => simpa [updAt] using ih n

theorem updAt_getElem? {β : Type} (l : List β) (i : ℕ) (f : β → β) (j : ℕ) :
    (updAt l i f)[j]? = if i = j then (l[j]?).map f else l[j]? := by
  induction l generalizing i j with
  | nil => simp [updAt]
  | cons x xs ih =>
    cases i with
    | zero => cases j with
      | zero => simp [updAt]
      | succ m => simp [updAt]
    | succ n => cases j with
      | zero => simp [updAt]
      | succ m => simpa [updAt] using ih n m

theorem tbStep_some (ps : List V3R) (us : List V2R) (i0 i1 i2 : ℕ)
    (acc : List (V3R × V3R)) (cnt : List ℕ)
    (h0 : i0 < ps.length) (h1 : i1 < ps.length) (h2 : i2 < ps.length)
    (hus : us.length = ps.length) :
    ∃ acc' cnt', tbStep ps us i0 i1 i2 acc cnt = some (acc', cnt') ∧
      acc'.length = acc.length ∧ cnt'.length = cnt.length ∧
      ∀ j, cnt'[j]? = (cnt[j]?).map
        (· + ((if i0 = j then 1 else 0) + (if i1 = j then 1 else 0) +
          (if i2 = j then 1 else 0))) := by
  have e0 : ps[i0]? = some ps[i0] := List.getElem?_eq_getElem h0
  have e1 : ps[i1]? = some ps[i1] := List.getElem?_eq_getElem h1
  have e2 : ps[i2]? = some ps[i2] := List.getElem?_eq_getElem h2
  have f0 : us[i0]? = some us[i0] := List.getElem?_eq_getElem (hus ▸ h0)
  have f1 : us[i1]? = some us[i1] := List.getElem?_eq_getElem (hus ▸ h1)
  have f2 : us[i2]? = some us[i2] := List.getElem?_eq_getElem (hus ▸ h2)
  rw [tbStep, e0, e1, e2, f0, f1, f2]
  simp only [Option.some_bind]
  refine ⟨_, _, rfl, by simp [updAt_length], by simp [updAt_length], fun j => ?_⟩
  rw [updAt_getElem?, updAt_getElem?, updAt_getElem?]
  by_cases g0 : i0 = j <;> by_cases g1 : i1 = j <;> by_cases g2 : i2 = j <;>
    cases hj : cnt[j]? <;>
      simp [g0, g1, g2, hj, Option.map_map, Function.comp]

theorem calcTBloop_go (ps : List V3R) (us : List V2R) :
    ∀ (n : ℕ) (idx : List ℕ) (acc : List (V3R × V3R)) (cnt : List ℕ),
      idx.length ≤ n →
      idx.length % 3 = 0 →
      (∀ i ∈ idx, i < ps.length) →
      us.length = ps.length →
      ∃ acc' cnt', calcTBloop ps us idx acc cnt = some (acc', cnt') ∧
        acc'.length = acc.length ∧ cnt'.length = cnt.length ∧
        ∀ j, cnt'[j]? = (cnt[j]?).map (· + idx.count j) := by
  intro n
  induction n with
  | zero =>
    intro idx acc cnt hlen h3 _ _
    have : idx = [] := List.eq_nil_of_length_eq_zero (Nat.le_zero.mp hlen)
    subst this
    refine ⟨acc, cnt, by simp [calcTBloop], rfl, rfl, fun j => ?_⟩
    cases cnt[j]? <;> simp
  | succ m ih =>
    intro idx acc cnt hlen h3 hvalid hus
    match idx with
    | [] =>
      refine ⟨acc, cnt, by simp [calcTBloop], rfl, rfl, fun j => ?_⟩
      cases cnt[j]? <;> simp
    | [a] => simp only [List.length_cons, List.length_nil] at h3; omega
    | [a, b] => simp only [List.length_cons, List.length_nil] at h3; omega
    | a :: b :: c :: rest =>
      have ha : a < ps.length := hvalid a (by simp)
      have hb : b < ps.length := hvalid b (by simp)
      have hc : c < ps.length := hvalid c (by simp)
      obtain ⟨acc1, cnt1, hstep, hlacc, hlcnt, hcv⟩ :=
        tbStep_some ps us a b c acc cnt ha hb hc hus
      obtain ⟨acc', cnt', hloop, hacc', hcnt', hval⟩ :=
        ih rest acc1 cnt1
          (by simp only [List.length_cons] at hlen; omega)
          (by simp only [List.length_cons] at h3 ⊢; omega)
          (fun i hi => hvalid i (by simp [hi]))
          hus
      refine ⟨acc', cnt', ?_, by omega, by omega, fun j => ?_⟩
      · rw [calcTBloop, hstep]
        simpa using hloop
      · rw [hval j, hcv j]
        by_cases g0 : a = j <;> by_cases g1 : b = j <;> by_cases g2 : c = j <;>
          cases hj : cnt[j]? <;>
            simp [List.count_cons, g0, g1, g2, hj, Option.map_map,
              Function.comp] <;> omega

theorem ctb_total (ps : List V3R) (us : List V2R) (idx : List ℕ)
    (h3 : idx.length % 3 = 0) (hvalid : ∀ i ∈ idx, i < ps.length)
    (hus : us.length = ps.length) :
    ∃ out, calculate_tangents_bitangents ps us idx = some out ∧
      out.length = ps.length := by
  obtain ⟨acc', cnt', hloop, hacc, hcnt, _⟩ :=
    calcTBloop_go ps us idx.length idx (initAcc ps.length)
      (trianglesIncludedInit ps.length) le_rfl h3 hvalid hus
  refine ⟨avgNormalize acc' cnt', ?_, ?_⟩
  · rw [calculate_tangents_bitangents, hloop]
    simp
  · simp only [initAcc, trianglesIncludedInit, List.length_replicate,
      List.length_range] at hacc hcnt
    simp only [avgNormalize, List.length_zipWith, hacc, hcnt, min_self]

theorem tbStep_none (ps : List V3R) (us : List V2R) (i0 i1 i2 : ℕ)
    (acc : List (V3R × V3R)) (cnt : List ℕ)
    (h : ps.length ≤ i0 ∨ ps.length ≤ i1 ∨ ps.length ≤ i2) :
    tbStep ps us i0 i1 i2 acc cnt = none := by
  rw [tbStep]
  rcases h with h | h | h
  · simp [List.getElem?_eq_none h]
  · cases e : ps[i0]? <;> simp [List.getElem?_eq_none h]
  · cases e0 : ps[i0]? <;> cases e1 : ps[i1]? <;> simp [List.getElem?_eq_none h]

theorem calcTBloop_none (ps : List V3R) (us : List V2R)
    (hus : us.length = ps.length) :
    ∀ (n : ℕ) (idx : List ℕ) (acc : List (V3R × V3R)) (cnt : List ℕ),
      idx.length ≤ n → (∃ i ∈ idx, ps.length ≤ i) →
      calcTBloop ps us idx acc cnt = none := by
  intro n
  induction n with
  | zero =>
    intro idx acc cnt hlen hbad
    obtain ⟨i, hi, _⟩ := hbad
    have : idx = [] := List.eq_nil_of_length_eq_zero (Nat.le_zero.mp hlen)
    subst this
    simp at hi
  | succ m ih =>
    intro idx acc cnt hlen hbad
    match idx with
    | [] => obtain ⟨i, hi, _⟩ := hbad; simp at hi
    | [a] => simp [calcTBloop]
    | [a, b] => simp [calcTBloop]
    | a :: b :: c :: rest =>
      by_cases hga : ps.length ≤ a
      · rw [calcTBloop, tbStep_none ps us a b c acc cnt (Or.inl hga)]
        rfl
      · by_cases hgb : ps.length ≤ b
        · rw [calcTBloop, tbStep_none ps us a b c acc cnt (Or.inr (Or.inl hgb))]
          rfl
        · by_cases hgc : ps.length ≤ c
          · rw [calcTBloop,
              tbStep_none ps us a b c acc cnt (Or.inr (Or.inr hgc))]
            rfl
          · obtain ⟨acc1, cnt1, hstep, -, -, -⟩ :=
              tbStep_some ps us a b c acc cnt (by omega) (by omega) (by omega)
                hus
            rw [calcTBloop, hstep]
            simp only [Option.some_bind]
            refine ih rest acc1 cnt1
              (by simp only [List.length_cons] at hlen; omega) ?_
            obtain ⟨i, hi, hgei⟩ := hbad
            refine ⟨i, ?_, hgei⟩
            simp only [List.mem_cons] at hi
            rcases hi with rfl | rfl | rfl | hi
            · omega
            · omega
            · omega
            · exact hi

theorem ctb_none (ps : List V3R) (us : List V2R) (idx : List ℕ)
    (hus : us.length = ps.length) (hbad : ∃ i ∈ idx, ps.length ≤ i) :
    calculate_tangents_bitangents ps us idx = none := by
  rw [calculate_tangents_bitangents,
    calcTBloop_none ps us hus idx.length idx _ _ le_rfl hbad]
  rfl

theorem mapM_some_of_forall {β : Type} (f : ℕ → Option β) :
    ∀ l : List ℕ, (∀ i ∈ l, (f i).isSome) →
      ∃ out, l.mapM f = some out ∧ out.length = l.length ∧
        ∀ (k v : ℕ), l[k]? = some v → out[k]? = f v := by
  intro l
  induction l with
  | nil => exact fun _ => ⟨[], rfl, rfl, fun k v hv => by simp at hv⟩
  | cons a t ih =>
    intro hall
    obtain ⟨out, hout, hlen, hval⟩ := ih fun i hi => hall i (by simp [hi])
    obtain ⟨b, hb⟩ := Option.isSome_iff_exists.mp (hall a (by simp))
    refine ⟨b :: out, ?_, by simp [hlen], fun k v hv => ?_⟩
    · rw [List.mapM_cons, hb, hout]
      rfl
    · cases k with
      | zero => simp at hv; subst hv; simp [hb]
      | succ m =>
        simp only [List.getElem?_cons_succ] at hv ⊢
        exact hval m v hv

theorem packMesh_total (mk : ℕ → Option MeshVertex) (n : ℕ) (indices : List ℕ)
    (b : Bool) (hv : ∀ i ∈ indices, i < n) (hmk : ∀ i < n, (mk i).isSome) :
    ∃ md, packMesh mk n indices b = some md ∧
      md.indexList = (if b then some indices else none) ∧
      md.num_elements = indices.length ∧
      md.vertices.length = (if b then n else indices.length) := by
  cases b with
  | true =>
    obtain ⟨out, hout, hlen, _⟩ :=
      mapM_some_of_forall mk (List.range n)
        (fun i hi => hmk i (List.mem_range.mp hi))
    exact ⟨⟨out, some indices, indices.length⟩, by rw [packMesh, hout]; rfl,
      rfl, rfl, by simp [hlen]⟩
  | false =>
    obtain ⟨out, hout, hlen, _⟩ :=
      mapM_some_of_forall mk indices (fun i hi => hmk i (hv i hi))
    exact ⟨⟨out, none, out.length⟩, by rw [packMesh, hout]; rfl, rfl,
      by simp [hlen], by simp [hlen]⟩

theorem packMesh_flatten (mk : ℕ → Option MeshVertex) (n : ℕ)
    (indices : List ℕ) (hv : ∀ i ∈ indices, i < n)
    (hmk : ∀ i < n, (mk i).isSome) :
    ∃ mi mu, packMesh mk n indices true = some mi ∧
      packMesh mk n indices false = some mu ∧
      mi.indexList = some indices ∧ mu.indexList = none ∧
      mu.vertices.length = indices.length ∧
      ∀ (k v : ℕ), indices[k]? = some v →
        mu.vertices[k]? = mi.vertices[v]? := by
  obtain ⟨vi, hvi, hvilen, hvival⟩ :=
    mapM_some_of_forall mk (List.range n)
      (fun i hi => hmk i (List.mem_range.mp hi))
  obtain ⟨vu, hvu, hvulen, hvuval⟩ :=
    mapM_some_of_forall mk indices (fun i hi => hmk i (hv i hi))
  refine ⟨⟨vi, some indices, indices.length⟩, ⟨vu, none, vu.length⟩,
    by rw [packMesh, hvi]; rfl, by rw [packMesh, hvu]; rfl, rfl, rfl,
    hvulen, fun k v hkv => ?_⟩
  have h1 : vu[k]? = mk v := hvuval k v hkv
  have hv' : v < n := hv v (List.getElem?_mem hkv)
  have h2 : vi[v]? = mk v := hvival v v (by simp [hv'])
  simp only [h1, h2]

theorem quadVertex_isSome (ps : List V3R) (ts : List V2R)
    (cvs : List (V3R × V3R)) (i : ℕ) (h1 : i < ps.length) (h2 : i < ts.length)
    (h3 : i < cvs.length) : (quadVertex ps ts cvs i).isSome := by
  rw [quadVertex, List.getElem?_eq_getElem h1, List.getElem?_eq_getElem h2,
    List.getElem?_eq_getElem h3]
  rfl

theorem quad_total (w h : ℝ) (b : Bool) :
    ∃ md, quadMeshData w h b = some md ∧
      md.indexList = (if b then some quadIndices else none) ∧
      md.num_elements = 6 ∧
      md.vertices.length = (if b then 4 else 6) := by
  obtain ⟨out, hout, hlen⟩ :=
    ctb_total (quadPositions w h) quadTexCoords quadIndices (by rfl)
      (by intro i hi; fin_cases hi <;> simp [quadPositions])
      (by rfl)
  obtain ⟨md, hmd, hidx, hnum, hvl⟩ :=
    packMesh_total (quadVertex (quadPositions w h) quadTexCoords out)
      (quadPositions w h).length quadIndices b
      (by intro i hi; fin_cases hi <;> simp [quadPositions])
      (fun i hi => quadVertex_isSome _ _ _ i hi
        (by simpa [quadPositions, quadTexCoords] using hi) (hlen ▸ hi))
  refine ⟨md, ?_, hidx, by simpa [quadIndices] using hnum, ?_⟩
  · rw [quadMeshData, hout]
    simpa using hmd
  · simpa [quadPositions, quadIndices] using hvl

theorem basePositions_length : basePositions.length = 12 := rfl

theorem subdivideChunks_go :
    ∀ (n : ℕ) (idx : List ℕ) (ps : List V3R),
      idx.length ≤ n → idx.length % 3 = 0 → (∀ i ∈ idx, i < ps.length) →
      ∃ ps' idx', subdivideChunks idx ps = some (ps', idx') ∧
        ps'.length = ps.length + idx.length ∧
        idx'.length = 4 * idx.length ∧
        (∀ i ∈ idx', i < ps'.length) := by
  intro n
  induction n with
  | zero =>
    intro idx ps hlen _ _
    have : idx = [] := List.eq_nil_of_length_eq_zero (Nat.le_zero.mp hlen)
    subst this
    exact ⟨ps, [], rfl, by simp, by simp, by simp⟩
  | succ m ih =>
    intro idx ps hlen h3 hvalid
    match idx with
    | [] => exact ⟨ps, [], rfl, by simp, by simp, by simp⟩
    | [a] => simp only [List.length_cons, List.length_nil] at h3; omega
    | [a, b] => simp only [List.length_cons, List.length_nil] at h3; omega
    | a :: b :: c :: rest =>
      have ha : a < ps.length := hvalid a (by simp)
      have hb : b < ps.length := hvalid b (by simp)
      have hc : c < ps.length := hvalid c (by simp)
      obtain ⟨ps', idx', hrec, hpl, hil, hval⟩ :=
        ih rest (ps ++ [normalize3 (add3 ps[a] ps[b]),
            normalize3 (add3 ps[b] ps[c]), normalize3 (add3 ps[a] ps[c])])
          (by simp only [List.length_cons] at hlen; omega)
          (by simp only [List.length_cons] at h3 ⊢; omega)
          (fun i hi => by
            have := hvalid i (by simp [hi])
            simp only [List.length_append, List.length_cons, List.length_nil]
            omega)
      refine ⟨ps', [a, ps.length, ps.length + 2, b, ps.length + 1, ps.length,
        c, ps.length + 2, ps.length + 1, ps.length, ps.length + 1,
        ps.length + 2] ++ idx', ?_, ?_, ?_, ?_⟩
      · rw [subdivideChunks, List.getElem?_eq_getElem ha,
          List.getElem?_eq_getElem hb, List.getElem?_eq_getElem hc]
        simp only [someBind]
        rw [hrec]
        simp only [someBind]
      · simp only [hpl, List.length_append, List.length_cons, List.length_nil]
        omega
      · simp only [List.length_append, List.length_cons, List.length_nil, hil]
        omega
      · intro i hi
        simp only [List.mem_append, List.mem_cons] at hi
        have hlb : ps.length + 3 ≤ ps'.length := by
          simp only [hpl, List.length_append, List.length_cons,
            List.length_nil]
          omega
        rcases hi with hi | hi
        · rcases hi with rfl | rfl | rfl | rfl | rfl | rfl | rfl | rfl | rfl
            | rfl | rfl | rfl | hfalse
          · omega
          · omega
          · omega
          · omega
          · omega
          · omega
          · omega
          · omega
          · omega
          · omega
          · omega
          · omega
          · simp at hfalse
        · exact hval i hi

theorem subdivN_total :
    ∀ it : ℕ, ∃ ps idx, subdivN it = some (ps, idx) ∧
      idx.length = 60 * 4 ^ it ∧ ps.length = 12 + 20 * (4 ^ it - 1) ∧
      (∀ i ∈ idx, i < ps.length) ∧ idx.length % 3 = 0 := by
  intro it
  induction it with
  | zero =>
    refine ⟨basePositions, baseIndices, rfl, by decide, by decide, ?_,
      by decide⟩
    intro i hi
    rw [basePositions_length]
    fin_cases hi <;> omega
  | succ k ih =>
    obtain ⟨ps, idx, hsub, hil, hpl, hvalid, h3⟩ := ih
    obtain ⟨ps', idx', hrec, hpl', hil', hval'⟩ :=
      subdivideChunks_go idx.length idx ps le_rfl h3 hvalid
    have h4 : 1 ≤ 4 ^ k := Nat.one_le_pow k 4 (by omega)
    refine ⟨ps', idx', ?_, ?_, ?_, hval', ?_⟩
    · rw [subdivN, hsub]
      simpa using hrec
    · rw [hil', hil, pow_succ]
      ring
    · rw [hpl', hpl, hil, pow_succ]
      omega
    · rw [hil', hil]
      omega

section

variable {α : Type} [LinearOrderedField α] {P : Type}

theorem smaller_is_marked {α : Type} [LinearOrderedField α] {x y : α}
    (bx : 0 ≤ x ∧ x ≤ 1) (hy : 0 ≤ y ∧ y ≤ 1)
    (habs : 1 / 2 < |y - x|) (hge : ¬x < 1 / 2) : y < 1 / 2 := by
  push_neg at hge
  rcases lt_abs.mp habs with hd | hd
  · linarith [hy.2]
  · linarith

theorem seamDetect_props (uvs : List (α × α))
    (hb : ∀ u ∈ uvs, 0 ≤ u.1 ∧ u.1 ≤ 1) :
    ∀ (n : ℕ) (l : List ℕ), l.length ≤ n → l.length % 3 = 0 →
      (∀ v ∈ l, v < uvs.length) →
      ∃ ms, seamDetectLoop uvs l = some ms ∧
        (∀ m ∈ ms, m ∈ l) ∧
        (∀ m ∈ ms, ∃ u, uvs[m]? = some u ∧ u.1 < 1 / 2) ∧
        (∀ k a b c, l[3 * k]? = some a → l[3 * k + 1]? = some b →
          l[3 * k + 2]? = some c →
          ∀ p q, ((p, q) = (a, c) ∨ (p, q) = (a, b) ∨ (p, q) = (b, c)) →
            ∀ up uq, uvs[p]? = some up → uvs[q]? = some uq →
              1 / 2 < |uq.1 - up.1| → p ∈ ms ∨ q ∈ ms) := by
  intro n
  induction n with
  | zero =>
    intro l hlen _ _
    have : l = [] := List.eq_nil_of_length_eq_zero (Nat.le_zero.mp hlen)
    subst this
    exact ⟨[], rfl, by simp, by simp, fun k a b c ha _ _ => by simp at ha⟩
  | succ m ih =>
    intro l hlen h3 hvals
    match l with
    | [] =>
      exact ⟨[], rfl, by simp, by simp, fun k a b c ha _ _ => by simp at ha⟩
    | [x] => simp only [List.length_cons, List.length_nil] at h3; omega
    | [x, y] => simp only [List.length_cons, List.length_nil] at h3; omega
    | c0 :: c1 :: c2 :: rest =>
      have h0 : c0 < uvs.length := hvals c0 (by simp)
      have h1 : c1 < uvs.length := hvals c1 (by simp)
      have h2 : c2 < uvs.length := hvals c2 (by simp)
      have e0 : uvs[c0]? = some uvs[c0] := List.getElem?_eq_getElem h0
      have e1 : uvs[c1]? = some uvs[c1] := List.getElem?_eq_getElem h1
      have e2 : uvs[c2]? = some uvs[c2] := List.getElem?_eq_getElem h2
      have b0 := hb uvs[c0] (List.getElem_mem h0)
      have b1 := hb uvs[c1] (List.getElem_mem h1)
      have b2 := hb uvs[c2] (List.getElem_mem h2)
      obtain ⟨ms', hrec, hsub, hsmall, hcomp⟩ :=
        ih rest (by simp only [List.length_cons] at hlen; omega)
          (by simp only [List.length_cons] at h3 ⊢; omega)
          (fun v hv => hvals v (by simp [hv]))
      refine ⟨(if 1 / 2 < |uvs[c2].1 - uvs[c0].1| then
          (if uvs[c0].1 < 1 / 2 then [c0] else [c2]) else []) ++
        ((if 1 / 2 < |uvs[c1].1 - uvs[c0].1| then
          (if uvs[c0].1 < 1 / 2 then [c0] else [c1]) else []) ++
        ((if 1 / 2 < |uvs[c2].1 - uvs[c1].1| then
          (if uvs[c1].1 < 1 / 2 then [c1] else [c2]) else []) ++ ms')),
        ?_, ?_, ?_, ?_⟩
      · rw [seamDetectLoop, e0, e1, e2]
        simp only [someBind]
        rw [hrec]
        simp only [someBind]
      · intro mk hmk
        simp only [List.mem_append] at hmk
        rcases hmk with hmk | hmk | hmk | hmk
        · split at hmk
          · split at hmk
            · simp only [List.mem_singleton] at hmk
              rw [hmk]
              simp
            · simp only [List.mem_singleton] at hmk
              rw [hmk]
              simp
          · simp at hmk
        · split at hmk
          · split at hmk
            · simp only [List.mem_singleton] at hmk
              rw [hmk]
              simp
            · simp only [List.mem_singleton] at hmk
              rw [hmk]
              simp
          · simp at hmk
        · split at hmk
          · split at hmk
            · simp only [List.mem_singleton] at hmk
              rw [hmk]
              simp
            · simp only [List.mem_singleton] at hmk
              rw [hmk]
              simp
          · simp at hmk
        · exact List.mem_cons_of_mem _ (List.mem_cons_of_mem _
            (List.mem_cons_of_mem _ (hsub mk hmk)))
      · intro mk hmk
        simp only [List.mem_append] at hmk
        rcases hmk with hmk | hmk | hmk | hmk
        · split at hmk
          · rename_i habs
            split at hmk
            · rename_i hlt
              simp only [List.mem_singleton] at hmk
              rw [hmk]
              exact ⟨uvs[c0], e0, hlt⟩
            · rename_i hge
              simp only [List.mem_singleton] at hmk
              rw [hmk]
              exact ⟨uvs[c2], e2, smaller_is_marked b0 b2 habs hge⟩
          · simp at hmk
        · split at hmk
          · rename_i habs
            split at hmk
            · rename_i hlt
              simp only [List.mem_singleton] at hmk
              rw [hmk]
              exact ⟨uvs[c0], e0, hlt⟩
            · rename_i hge
              simp only [List.mem_singleton] at hmk
              rw [hmk]
              exact ⟨uvs[c1], e1, smaller_is_marked b0 b1 habs hge⟩
          · simp at hmk
        · split at hmk
          · rename_i habs
            split at hmk
            · rename_i hlt
              simp only [List.mem_singleton] at hmk
              rw [hmk]
              exact ⟨uvs[c1], e1, hlt⟩
            · rename_i hge
              simp only [List.mem_singleton] at hmk
              rw [hmk]
              exact ⟨uvs[c2], e2, smaller_is_marked b1 b2 habs hge⟩
          · simp at hmk
        · exact hsmall mk hmk
      · intro k a b c hka hkb hkc p q hpq up uq hup huq hdiff
        match k with
        | 0 =>
          simp only [Nat.mul_zero, List.getElem?_cons_zero, Nat.zero_add,
            List.getElem?_cons_succ, Option.some_inj] at hka hkb hkc
          subst a
          subst b
          subst c
          rcases hpq with hpq | hpq | hpq
          · simp only [Prod.mk.injEq] at hpq
            obtain ⟨hp1, hq1⟩ := hpq
            subst p
            subst q
            rw [e0] at hup
            rw [e2] at huq
            obtain rfl := Option.some_inj.mp hup
            obtain rfl := Option.some_inj.mp huq
            by_cases hlt : uvs[c0].1 < 1 / 2
            · left
              simp only [List.mem_append]
              left
              rw [if_pos hdiff, if_pos hlt]
              simp
            · right
              simp only [List.mem_append]
              left
              rw [if_pos hdiff, if_neg hlt]
              simp
          · simp only [Prod.mk.injEq] at hpq
            obtain ⟨hp1, hq1⟩ := hpq
            subst p
            subst q
            rw [e0] at hup
            rw [e1] at huq
            obtain rfl := Option.some_inj.mp hup
            obtain rfl := Option.some_inj.mp huq
            by_cases hlt : uvs[c0].1 < 1 / 2
            · left
              simp only [List.mem_append]
              right
              left
              rw [if_pos hdiff, if_pos hlt]
              simp
            · right
              simp only [List.mem_append]
              right
              left
              rw [if_pos hdiff, if_neg hlt]
              simp
          · simp only [Prod.mk.injEq] at hpq
            obtain ⟨hp1, hq1⟩ := hpq
            subst p
            subst q
            rw [e1] at hup
            rw [e2] at huq
            obtain rfl := Option.some_inj.mp hup
            obtain rfl := Option.some_inj.mp huq
            by_cases hlt : uvs[c1].1 < 1 / 2
            · left
              simp only [List.mem_append]
              right
              right
              left
              rw [if_pos hdiff, if_pos hlt]
              simp
            · right
              simp only [List.mem_append]
              right
              right
              left
              rw [if_pos hdiff, if_neg hlt]
              simp
        | k' + 1 =>
          have sa : (c0 :: c1 :: c2 :: rest)[3 * (k' + 1)]? =
              rest[3 * k']? := by
            have h34 : 3 * (k' + 1) = 3 * k' + 2 + 1 := by omega
            rw [h34]
            simp [List.getElem?_cons_succ]
          have sb : (c0 :: c1 :: c2 :: rest)[3 * (k' + 1) + 1]? =
              rest[3 * k' + 1]? := by
            have h34 : 3 * (k' + 1) + 1 = 3 * k' + 1 + 2 + 1 := by omega
            rw [h34]
            simp [List.getElem?_cons_succ]
          have sc : (c0 :: c1 :: c2 :: rest)[3 * (k' + 1) + 2]? =
              rest[3 * k' + 2]? := by
            have h34 : 3 * (k' + 1) + 2 = 3 * k' + 2 + 2 + 1 := by omega
            rw [h34]
            simp [List.getElem?_cons_succ]
          rw [sa] at hka
          rw [sb] at hkb
          rw [sc] at hkc
          rcases hcomp k' a b c hka hkb hkc p q hpq up uq hup huq hdiff with
            hin | hin
          · left
            simp [hin]
          · right
            simp [hin]

theorem markPair_branch_eq {t0 tq : α} (b0 : 0 ≤ t0 ∧ t0 ≤ 1)
    (bq : 0 ≤ tq ∧ tq ≤ 1) (p q : ℕ) :
    (if 1 / 2 < |tq - t0| then (if t0 < 1 / 2 then [p] else [q]) else []) =
    (if 1 / 2 < |tq - t0| then [if t0 < tq then p else q] else
      ([] : List ℕ)) := by
  by_cases habs : 1 / 2 < |tq - t0|
  · have hiff : t0 < 1 / 2 ↔ t0 < tq := by
      constructor
      · intro h
        rcases lt_abs.mp habs with hd | hd
        · linarith
        · linarith [bq.1]
      · intro h
        rcases lt_abs.mp habs with hd | hd
        · linarith [bq.2]
        · linarith
    rw [if_pos habs, if_pos habs]
    by_cases h : t0 < 1 / 2
    · rw [if_pos h, if_pos (hiff.mp h)]
    · rw [if_neg h, if_neg (fun hc => h (hiff.mpr hc))]
  · rw [if_neg habs, if_neg habs]

theorem seamDetect_refines (uvs : List (α × α))
    (hb : ∀ u ∈ uvs, 0 ≤ u.1 ∧ u.1 ≤ 1) :
    ∀ (n : ℕ) (l : List ℕ), l.length ≤ n →
      seamDetectLoop uvs l = specDetectLoop uvs l := by
  intro n
  induction n with
  | zero =>
    intro l hlen
    have : l = [] := List.eq_nil_of_length_eq_zero (Nat.le_zero.mp hlen)
    subst this
    rfl
  | succ m ih =>
    intro l hlen
    match l with
    | [] => rfl
    | [x] => rfl
    | [x, y] => rfl
    | c0 :: c1 :: c2 :: rest =>
      have hrec := ih rest (by simp only [List.length_cons] at hlen; omega)
      cases hc0 : uvs[c0]? with
      | none =>
        simp only [seamDetectLoop, specDetectLoop, specMarkPair, hc0,
          noneBind]
      | some t0 =>
        cases hc2 : uvs[c2]? with
        | none =>
          cases hc1 : uvs[c1]? with
          | none =>
            simp only [seamDetectLoop, specDetectLoop, specMarkPair, hc0,
              hc1, hc2, someBind, noneBind]
          | some t1 =>
            simp only [seamDetectLoop, specDetectLoop, specMarkPair, hc0,
              hc1, hc2, someBind, noneBind]
        | some t2 =>
          cases hc1 : uvs[c1]? with
          | none =>
            simp only [seamDetectLoop, specDetectLoop, specMarkPair, hc0,
              hc1, hc2, someBind, noneBind]
          | some t1 =>
            have b0 := hb t0 (List.getElem?_mem hc0)
            have b1 := hb t1 (List.getElem?_mem hc1)
            have b2 := hb t2 (List.getElem?_mem hc2)
            simp only [seamDetectLoop, specDetectLoop, specMarkPair, hc0,
              hc1, hc2, someBind, hrec]
            rw [markPair_branch_eq b0 b2, markPair_branch_eq b0 b1,
              markPair_branch_eq b1 b2]

theorem getElem?_lt {β : Type} {l : List β} {j : ℕ} {v : β}
    (h : l[j]? = some v) : j < l.length := by
  by_contra hge
  rw [List.getElem?_eq_none (by omega)] at h
  exact Option.noConfusion h

theorem seamScan_char (i newIdx : ℕ) (uvs : List (α × α)) (idx : List ℕ)
    (h3 : idx.length % 3 = 0) (hvals : ∀ v ∈ idx, v < uvs.length)
    (hdist : TriDistinct idx) :
    ∃ idx', seamScan i newIdx uvs idx = some idx' ∧
      idx'.length = idx.length ∧
      ∀ j v, idx[j]? = some v →
        ((v = i ∧ redirCond uvs idx j) → idx'[j]? = some newIdx) ∧
        (¬(v = i ∧ redirCond uvs idx j) → idx'[j]? = some v) := by
  suffices h : ∀ (cnt a : ℕ) (cur : List ℕ), a + cnt = idx.length →
      cur.length = idx.length →
      (∀ j v, idx[j]? = some v →
        ((j < a ∧ v = i ∧ redirCond uvs idx j) → cur[j]? = some newIdx) ∧
        (¬(j < a ∧ v = i ∧ redirCond uvs idx j) → cur[j]? = some v)) →
      ∃ idx', (List.range' a cnt).foldlM (seamScanStep i newIdx uvs) cur =
          some idx' ∧
        idx'.length = idx.length ∧
        ∀ j v, idx[j]? = some v →
          ((j < a + cnt ∧ v = i ∧ redirCond uvs idx j) →
            idx'[j]? = some newIdx) ∧
          (¬(j < a + cnt ∧ v = i ∧ redirCond uvs idx j) →
            idx'[j]? = some v) by
    obtain ⟨idx', hfold, hlen, hinv⟩ := h idx.length 0 idx (by omega) rfl
      (fun j v hv => ⟨fun hfalse => absurd hfalse.1 (by omega),
        fun _ => hv⟩)
    refine ⟨idx', ?_, hlen, fun j v hv => ?_⟩
    · rw [seamScan, List.range_eq_range']
      exact hfold
    · have hj : j < idx.length := getElem?_lt hv
      obtain ⟨h1, h2⟩ := hinv j v hv
      exact ⟨fun hc => h1 ⟨by omega, hc⟩, fun hc => h2 (fun hc' => hc hc'.2)⟩
  intro cnt
  induction cnt with
  | zero =>
    intro a cur hsum hlen hinv
    exact ⟨cur, rfl, by omega, fun j v hv => by
      simpa using hinv j v hv⟩
  | succ c ih =>
    intro a cur hsum hlen hinv
    have ha : a < idx.length := by omega
    obtain ⟨v0, hv0⟩ : ∃ v, idx[a]? = some v :=
      ⟨idx[a], List.getElem?_eq_getElem ha⟩
    have hcura : cur[a]? = some v0 :=
      (hinv a v0 hv0).2 (fun hc => absurd hc.1 (by omega))
    rw [List.range'_succ, List.foldlM_cons]
    by_cases hvi : v0 = i
    · -- slot a holds the split vertex: evaluate the redirect condition
      have ho1 : (a + 1) % 3 + a / 3 * 3 < idx.length := by omega
      have ho2 : (a + 2) % 3 + a / 3 * 3 < idx.length := by omega
      obtain ⟨w1, hw1⟩ : ∃ w, idx[(a + 1) % 3 + a / 3 * 3]? = some w :=
        ⟨_, List.getElem?_eq_getElem ho1⟩
      obtain ⟨w2, hw2⟩ : ∃ w, idx[(a + 2) % 3 + a / 3 * 3]? = some w :=
        ⟨_, List.getElem?_eq_getElem ho2⟩
      have hw1i : ¬w1 = i := by
        intro hcon
        refine hdist ((a + 1) % 3 + a / 3 * 3) ho1 a ha (by omega) (by omega)
          ?_
        rw [hw1, hv0, hcon, hvi]
      have hw2i : ¬w2 = i := by
        intro hcon
        refine hdist ((a + 2) % 3 + a / 3 * 3) ho2 a ha (by omega) (by omega)
          ?_
        rw [hw2, hv0, hcon, hvi]
      have hcur1 : cur[(a + 1) % 3 + a / 3 * 3]? = some w1 :=
        (hinv _ w1 hw1).2 (fun hc => hw1i hc.2.1)
      have hcur2 : cur[(a + 2) % 3 + a / 3 * 3]? = some w2 :=
        (hinv _ w2 hw2).2 (fun hc => hw2i hc.2.1)
      obtain ⟨u1, hu1⟩ : ∃ u, uvs[w1]? = some u :=
        ⟨_, List.getElem?_eq_getElem (hvals w1 (List.getElem?_mem hw1))⟩
      obtain ⟨u2, hu2⟩ : ∃ u, uvs[w2]? = some u :=
        ⟨_, List.getElem?_eq_getElem (hvals w2 (List.getElem?_mem hw2))⟩
      have hcond_iff : redirCond uvs idx a ↔ (1 / 2 < u1.1 ∨ 1 / 2 < u2.1) := by
        constructor
        · rintro ⟨n1, n2, x1, x2, hn1, hn2, hx1, hx2, hor⟩
          rw [hw1] at hn1
          rw [hw2] at hn2
          obtain rfl := Option.some_inj.mp hn1
          obtain rfl := Option.some_inj.mp hn2
          rw [hu1] at hx1
          rw [hu2] at hx2
          obtain rfl := Option.some_inj.mp hx1
          obtain rfl := Option.some_inj.mp hx2
          exact hor
        · intro hor
          exact ⟨w1, w2, u1, u2, hw1, hw2, hu1, hu2, hor⟩
      have hstep : seamScanStep i newIdx uvs cur a =
          some (if 1 / 2 < u1.1 ∨ 1 / 2 < u2.1 then cur.set a newIdx
            else cur) := by
        rw [seamScanStep, hcura]
        simp only [someBind]
        rw [if_pos hvi, hcur1]
        simp only [someBind]
        rw [hcur2]
        simp only [someBind]
        rw [hu1]
        simp only [someBind]
        by_cases hb1 : 1 / 2 < u1.1
        · rw [if_pos hb1, if_pos (Or.inl hb1)]
        · rw [if_neg hb1, hu2]
          simp only [someBind]
          by_cases hb2 : 1 / 2 < u2.1
          · rw [if_pos hb2, if_pos (Or.inr hb2)]
          · rw [if_neg hb2, if_neg (by tauto)]
      rw [hstep]
      simp only [someBind]
      by_cases hcond : 1 / 2 < u1.1 ∨ 1 / 2 < u2.1
      · rw [if_pos hcond]
        have hinv' : ∀ j v, idx[j]? = some v →
            ((j < a + 1 ∧ v = i ∧ redirCond uvs idx j) →
              (cur.set a newIdx)[j]? = some newIdx) ∧
            (¬(j < a + 1 ∧ v = i ∧ redirCond uvs idx j) →
              (cur.set a newIdx)[j]? = some v) := by
          intro j v hv
          by_cases hja : j = a
          · subst hja
            obtain rfl : v0 = v := by
              rw [hv0] at hv
              exact Option.some_inj.mp hv
            constructor
            · intro _
              rw [List.getElem?_set_self (by omega)]
            · intro hc
              exact absurd ⟨by omega, hvi, hcond_iff.mpr hcond⟩ hc
          · rw [List.getElem?_set_ne (fun h => hja h.symm)]
            obtain ⟨g1, g2⟩ := hinv j v hv
            exact ⟨fun hc => g1 ⟨by omega, hc.2⟩,
              fun hc => g2 (fun hc' => hc ⟨by omega, hc'.2⟩)⟩
        obtain ⟨idx', hf, hl, hi⟩ := ih (a + 1) (cur.set a newIdx) (by omega)
          (by simp [hlen]) hinv'
        exact ⟨idx', hf, hl, fun j v hv =>
          ⟨fun hc => (hi j v hv).1 ⟨by omega, hc.2⟩,
           fun hc => (hi j v hv).2 (fun hc' => hc ⟨by omega, hc'.2⟩)⟩⟩
      · rw [if_neg hcond]
        have hinv' : ∀ j v, idx[j]? = some v →
            ((j < a + 1 ∧ v = i ∧ redirCond uvs idx j) →
              cur[j]? = some newIdx) ∧
            (¬(j < a + 1 ∧ v = i ∧ redirCond uvs idx j) →
              cur[j]? = some v) := by
          intro j v hv
          by_cases hja : j = a
          · subst hja
            obtain rfl : v0 = v := by
              rw [hv0] at hv
              exact Option.some_inj.mp hv
            constructor
            · intro hc
              exact absurd (hcond_iff.mp hc.2.2) hcond
            · intro _
              exact hcura
          · obtain ⟨g1, g2⟩ := hinv j v hv
            exact ⟨fun hc => g1 ⟨by omega, hc.2⟩,
              fun hc => g2 (fun hc' => hc ⟨by omega, hc'.2⟩)⟩
        obtain ⟨idx', hf, hl, hi⟩ := ih (a + 1) cur (by omega) hlen hinv'
        exact ⟨idx', hf, hl, fun j v hv =>
          ⟨fun hc => (hi j v hv).1 ⟨by omega, hc.2⟩,
           fun hc => (hi j v hv).2 (fun hc' => hc ⟨by omega, hc'.2⟩)⟩⟩
    · -- slot a holds a different vertex: no redirect
      have hstep : seamScanStep i newIdx uvs cur a = some cur := by
        rw [seamScanStep, hcura]
        simp only [someBind]
        rw [if_neg hvi]
      rw [hstep]
      simp only [someBind]
      have hinv' : ∀ j v, idx[j]? = some v →
          ((j < a + 1 ∧ v = i ∧ redirCond uvs idx j) →
            cur[j]? = some newIdx) ∧
          (¬(j < a + 1 ∧ v = i ∧ redirCond uvs idx j) →
            cur[j]? = some v) := by
        intro j v hv
        by_cases hja : j = a
        · subst hja
          obtain rfl : v0 = v := by
            rw [hv0] at hv
            exact Option.some_inj.mp hv
          constructor
          · intro hc
            exact absurd hc.2.1 hvi
          · intro _
            exact hcura
        · obtain ⟨g1, g2⟩ := hinv j v hv
          exact ⟨fun hc => g1 ⟨by omega, hc.2⟩,
            fun hc => g2 (fun hc' => hc ⟨by omega, hc'.2⟩)⟩
      obtain ⟨idx', hf, hl, hi⟩ := ih (a + 1) cur (by omega) hlen hinv'
      exact ⟨idx', hf, hl, fun j v hv =>
        ⟨fun hc => (hi j v hv).1 ⟨by omega, hc.2⟩,
         fun hc => (hi j v hv).2 (fun hc' => hc ⟨by omega, hc'.2⟩)⟩⟩

theorem seamSplitOne_char (ps : List P) (uvs : List (α × α)) (idx : List ℕ)
    (i : ℕ) (hi : i < ps.length) (hlen : uvs.length = ps.length)
    (hvals : ∀ v ∈ idx, v < ps.length) (h3 : idx.length % 3 = 0)
    (hdist : TriDistinct idx) :
    ∃ p0 u0 idx', ps[i]? = some p0 ∧ uvs[i]? = some u0 ∧
      seamSplitOne (ps, uvs, idx) i =
        some (ps ++ [p0], uvs ++ [(u0.1 + 1, u0.2 + 0)], idx') ∧
      idx'.length = idx.length ∧
      ∀ j v, idx[j]? = some v →
        ((v = i ∧ redirCond uvs idx j) → idx'[j]? = some ps.length) ∧
        (¬(v = i ∧ redirCond uvs idx j) → idx'[j]? = some v) := by
  have hp0 : ps[i]? = some ps[i] := List.getElem?_eq_getElem hi
  have hu0 : uvs[i]? = some uvs[i] := List.getElem?_eq_getElem (hlen ▸ hi)
  have hvals1 : ∀ v ∈ idx, v <
      (uvs ++ [(uvs[i].1 + 1, uvs[i].2 + 0)]).length := by
    intro v hv
    have := hvals v hv
    simp only [List.length_append, List.length_cons, List.length_nil]
    omega
  obtain ⟨idx', hscan, hslen, hschar⟩ :=
    seamScan_char i ((ps ++ [ps[i]]).length - 1)
      (uvs ++ [(uvs[i].1 + 1, uvs[i].2 + 0)]) idx h3 hvals1 hdist
  have hlen1 : (ps ++ [ps[i]]).length - 1 = ps.length := by
    simp
  rw [hlen1] at hschar
  have hconv : ∀ j, redirCond (uvs ++ [(uvs[i].1 + 1, uvs[i].2 + 0)]) idx j ↔
      redirCond uvs idx j := by
    intro j
    constructor
    · rintro ⟨n1, n2, u1, u2, hn1, hn2, hx1, hx2, hor⟩
      have l1 : n1 < uvs.length := hlen ▸ hvals n1 (List.getElem?_mem hn1)
      have l2 : n2 < uvs.length := hlen ▸ hvals n2 (List.getElem?_mem hn2)
      rw [List.getElem?_append_left l1] at hx1
      rw [List.getElem?_append_left l2] at hx2
      exact ⟨n1, n2, u1, u2, hn1, hn2, hx1, hx2, hor⟩
    · rintro ⟨n1, n2, u1, u2, hn1, hn2, hx1, hx2, hor⟩
      have l1 : n1 < uvs.length := hlen ▸ hvals n1 (List.getElem?_mem hn1)
      have l2 : n2 < uvs.length := hlen ▸ hvals n2 (List.getElem?_mem hn2)
      exact ⟨n1, n2, u1, u2, hn1, hn2,
        (List.getElem?_append_left l1) ▸ hx1,
        (List.getElem?_append_left l2) ▸ hx2, hor⟩
  refine ⟨ps[i], uvs[i], idx', hp0, hu0, ?_, hslen, fun j v hv => ?_⟩
  · rw [seamSplitOne]
    simp only
    rw [hp0]
    simp only [someBind]
    rw [hu0]
    simp only [someBind]
    rw [hscan]
    simp only [someBind]
  · obtain ⟨g1, g2⟩ := hschar j v hv
    exact ⟨fun hc => g1 ⟨hc.1, (hconv j).mpr hc.2⟩,
      fun hc => g2 (fun hc' => hc ⟨hc'.1, (hconv j).mp hc'.2⟩)⟩

theorem seamSplitAll_master (ps0 : List P) (uvs0 : List (α × α))
    (idx0 : List ℕ) (ms : List ℕ)
    (hW1 : uvs0.length = ps0.length)
    (hW2 : ∀ v ∈ idx0, v < ps0.length)
    (hW3 : idx0.length % 3 = 0)
    (hW4 : TriDistinct idx0)
    (hB : ∀ u ∈ uvs0, 0 ≤ u.1 ∧ u.1 ≤ 1)
    (hMlt : ∀ m ∈ ms, m < ps0.length)
    (hMsmall : ∀ m ∈ ms, ∃ u, uvs0[m]? = some u ∧ u.1 < 1 / 2) :
    ∃ ps' uvs' idx',
      seamSplitAll (ps0, uvs0, idx0) ms = some (ps', uvs', idx') ∧
      ps'.length = ps0.length + ms.length ∧
      uvs'.length = ps'.length ∧
      idx'.length = idx0.length ∧
      (∀ j, j < ps0.length → ps'[j]? = ps0[j]?) ∧
      (∀ j, j < uvs0.length → uvs'[j]? = uvs0[j]?) ∧
      (∀ k m, ms[k]? = some m → ps'[ps0.length + k]? = ps0[m]? ∧
        uvs'[uvs0.length + k]? =
          (uvs0[m]?).map (fun u => (u.1 + 1, u.2 + 0))) ∧
      (∀ j v0, idx0[j]? = some v0 →
        (¬(v0 ∈ ms ∧ HotTri uvs0 idx0 (j / 3)) → idx'[j]? = some v0) ∧
        ((v0 ∈ ms ∧ HotTri uvs0 idx0 (j / 3)) → ∃ d u0, idx'[j]? = some d ∧
          uvs0.length ≤ d ∧ d < uvs'.length ∧ uvs0[v0]? = some u0 ∧
          uvs'[d]? = some (u0.1 + 1, u0.2 + 0))) := by
  suffices h : ∀ (suffix pre : List ℕ) (ps : List P) (uvs : List (α × α))
      (idx : List ℕ), ms = pre ++ suffix →
      ps.length = ps0.length + pre.length →
      uvs.length = ps.length →
      idx.length = idx0.length →
      (∀ j, j < ps0.length → ps[j]? = ps0[j]?) →
      (∀ j, j < uvs0.length → uvs[j]? = uvs0[j]?) →
      (∀ k m, pre[k]? = some m → ps[ps0.length + k]? = ps0[m]? ∧
        uvs[uvs0.length + k]? =
          (uvs0[m]?).map (fun u => (u.1 + 1, u.2 + 0))) →
      (∀ d, uvs0.length ≤ d → d < uvs.length →
        ∃ u, uvs[d]? = some u ∧ 1 ≤ u.1) →
      (∀ j v0, idx0[j]? = some v0 →
        (¬(v0 ∈ pre ∧ HotTri uvs0 idx0 (j / 3)) → idx[j]? = some v0) ∧
        ((v0 ∈ pre ∧ HotTri uvs0 idx0 (j / 3)) → ∃ d u0, idx[j]? = some d ∧
          uvs0.length ≤ d ∧ d < uvs.length ∧ uvs0[v0]? = some u0 ∧
          uvs[d]? = some (u0.1 + 1, u0.2 + 0))) →
      TriDistinct idx →
      (∀ v ∈ idx, v < uvs.length) →
      ∃ ps' uvs' idx',
        suffix.foldlM seamSplitOne (ps, uvs, idx) = some (ps', uvs', idx') ∧
        ps'.length = ps0.length + ms.length ∧
        uvs'.length = ps'.length ∧
        idx'.length = idx0.length ∧
        (∀ j, j < ps0.length → ps'[j]? = ps0[j]?) ∧
        (∀ j, j < uvs0.length → uvs'[j]? = uvs0[j]?) ∧
        (∀ k m, ms[k]? = some m → ps'[ps0.length + k]? = ps0[m]? ∧
          uvs'[uvs0.length + k]? =
            (uvs0[m]?).map (fun u => (u.1 + 1, u.2 + 0))) ∧
        (∀ j v0, idx0[j]? = some v0 →
          (¬(v0 ∈ ms ∧ HotTri uvs0 idx0 (j / 3)) → idx'[j]? = some v0) ∧
          ((v0 ∈ ms ∧ HotTri uvs0 idx0 (j / 3)) → ∃ d u0,
            idx'[j]? = some d ∧ uvs0.length ≤ d ∧ d < uvs'.length ∧
            uvs0[v0]? = some u0 ∧ uvs'[d]? = some (u0.1 + 1, u0.2 + 0))) by
    exact h ms [] ps0 uvs0 idx0 rfl (by simp) hW1 rfl
      (fun j _ => rfl) (fun j _ => rfl) (fun k m hk => by simp at hk)
      (fun d hd1 hd2 => absurd (lt_of_le_of_lt hd1 hd2) (lt_irrefl _))
      (fun j v0 hv0 => ⟨fun _ => hv0, fun hc => absurd hc.1 (by simp)⟩)
      hW4 (fun v hv => hW1 ▸ hW2 v hv)
  intro suffix
  induction suffix with
  | nil =>
    intro pre ps uvs idx hms hA1 hA2 hA3 hA4 hA5 hA6 hA7 hA8 hA9 hA10
    rw [List.append_nil] at hms
    subst hms
    exact ⟨ps, uvs, idx, rfl, hA1, hA2, hA3, hA4, hA5, hA6, hA8⟩
  | cons m suffix' ih =>
    intro pre ps uvs idx hms hA1 hA2 hA3 hA4 hA5 hA6 hA7 hA8 hA9 hA10
    have hmms : m ∈ ms := by
      rw [hms]
      simp
    have hmlt : m < ps0.length := hMlt m hmms
    obtain ⟨um, hum, humlt⟩ := hMsmall m hmms
    have hlen3 : idx.length % 3 = 0 := by rw [hA3]; exact hW3
    obtain ⟨p0, u0m, idx1, hp0, hu0, hsplit, hilen, hchar⟩ :=
      seamSplitOne_char ps uvs idx m (by omega) hA2
        (fun v hv => hA2 ▸ hA10 v hv) hlen3 hA9
    -- the looked-up values are the original ones
    have hp0' : ps0[m]? = some p0 := by
      rw [← hA4 m hmlt]
      exact hp0
    have hu0' : uvs0[m]? = some u0m := by
      rw [← hA5 m (by omega)]
      exact hu0
    obtain rfl : u0m = um := by
      rw [hum] at hu0'
      exact (Option.some_inj.mp hu0').symm
    have hu0B : 0 ≤ u0m.1 ∧ u0m.1 ≤ 1 := hB u0m (List.getElem?_mem hum)
    -- the condition of the scan is exactly hotness of the slot's triangle
    have hcond_iff : ∀ j v0, idx0[j]? = some v0 → v0 = m →
        idx[j]? = some v0 →
        (redirCond uvs idx j ↔ HotTri uvs0 idx0 (j / 3)) := by
      intro j v0 hv0 hvm hcurj
      have hj0 : j < idx0.length := getElem?_lt hv0
      have hj : j < idx.length := by omega
      have ho1lt : (j + 1) % 3 + j / 3 * 3 < idx.length := by omega
      have ho2lt : (j + 2) % 3 + j / 3 * 3 < idx.length := by omega
      constructor
      · rintro ⟨n1, n2, x1, x2, hn1, hn2, hx1, hx2, hor⟩
        have key : ∀ o nn xx, o < idx.length → o / 3 = j / 3 →
            idx[o]? = some nn → uvs[nn]? = some xx → 1 / 2 < xx.1 →
            HotTri uvs0 idx0 (j / 3) := by
          intro o nn xx ho hodiv hno hxo hgt
          have ho0 : o < idx0.length := by omega
          obtain ⟨w, hw⟩ : ∃ w, idx0[o]? = some w :=
            ⟨_, List.getElem?_eq_getElem ho0⟩
          obtain ⟨hkeep, hred⟩ := hA8 o w hw
          by_cases hcase : w ∈ pre ∧ HotTri uvs0 idx0 (o / 3)
          · rw [← hodiv]
            exact hcase.2
          · have hcur : idx[o]? = some w := hkeep hcase
            obtain rfl : w = nn := by
              rw [hcur] at hno
              exact Option.some_inj.mp hno
            have hwlt : w < ps0.length := hW2 w (List.getElem?_mem hw)
            have hx0 : uvs0[w]? = some xx := by
              rw [← hA5 w (by omega)]
              exact hxo
            refine ⟨o - 3 * (j / 3), by omega, w, xx, ?_, hx0, hgt⟩
            have heq : 3 * (j / 3) + (o - 3 * (j / 3)) = o := by omega
            rw [heq]
            exact hw
        rcases hor with hgt | hgt
        · exact key _ n1 x1 ho1lt (by omega) hn1 hx1 hgt
        · exact key _ n2 x2 ho2lt (by omega) hn2 hx2 hgt
      · rintro ⟨s, hs3, w, uw, hw, huw, hwgt⟩
        have hjs0 : 3 * (j / 3) + s < idx0.length := getElem?_lt hw
        have hwms : ¬w ∈ ms := by
          intro hcon
          obtain ⟨uu, huu, huult⟩ := hMsmall w hcon
          rw [huw] at huu
          obtain rfl := Option.some_inj.mp huu
          linarith
        have hwpre : ¬w ∈ pre := fun hcon => hwms (by rw [hms]; simp [hcon])
        have hcurw : idx[3 * (j / 3) + s]? = some w :=
          (hA8 _ w hw).1 (fun hc => hwpre hc.1)
        have hwlt : w < ps0.length := hW2 w (List.getElem?_mem hw)
        have huvw : uvs[w]? = some uw := by
          rw [hA5 w (by omega)]
          exact huw
        have hjsne : 3 * (j / 3) + s ≠ j := by
          intro hcon
          rw [hcon, hv0] at hw
          obtain rfl := Option.some_inj.mp hw
          rw [hvm] at huw
          rw [hum] at huw
          obtain rfl := Option.some_inj.mp huw
          linarith
        obtain ⟨n1, hn1⟩ : ∃ n, idx[(j + 1) % 3 + j / 3 * 3]? = some n :=
          ⟨_, List.getElem?_eq_getElem ho1lt⟩
        obtain ⟨n2, hn2⟩ : ∃ n, idx[(j + 2) % 3 + j / 3 * 3]? = some n :=
          ⟨_, List.getElem?_eq_getElem ho2lt⟩
        obtain ⟨x1, hx1⟩ : ∃ x, uvs[n1]? = some x :=
          ⟨_, List.getElem?_eq_getElem (hA10 n1 (List.getElem?_mem hn1))⟩
        obtain ⟨x2, hx2⟩ : ∃ x, uvs[n2]? = some x :=
          ⟨_, List.getElem?_eq_getElem (hA10 n2 (List.getElem?_mem hn2))⟩
        have hjscase : 3 * (j / 3) + s = (j + 1) % 3 + j / 3 * 3 ∨
            3 * (j / 3) + s = (j + 2) % 3 + j / 3 * 3 := by omega
        rcases hjscase with hjseq | hjseq
        · rw [hjseq] at hcurw
          obtain rfl : w = n1 := by
            rw [hcurw] at hn1
            exact Option.some_inj.mp hn1
          rw [huvw] at hx1
          obtain rfl := Option.some_inj.mp hx1
          exact ⟨w, n2, uw, x2, hcurw, hn2, huvw, hx2, Or.inl hwgt⟩
        · rw [hjseq] at hcurw
          obtain rfl : w = n2 := by
            rw [hcurw] at hn2
            exact Option.some_inj.mp hn2
          rw [huvw] at hx2
          obtain rfl := Option.some_inj.mp hx2
          exact ⟨n1, w, x1, uw, hn1, hcurw, hx1, huvw, Or.inr hwgt⟩
    -- set up the new state's invariant and recurse
    obtain ⟨ps', uvs', idx', hfold, hB1, hB2, hB3, hB4, hB5, hB6, hB8⟩ :=
      ih (pre ++ [m]) (ps ++ [p0]) (uvs ++ [(u0m.1 + 1, u0m.2 + 0)]) idx1
        (by rw [hms, List.append_assoc]; rfl)
        (by simp only [List.length_append, List.length_cons,
          List.length_nil]; omega)
        (by simp only [List.length_append, List.length_cons,
          List.length_nil]; omega)
        (by omega)
        (fun j hj => by
          rw [List.getElem?_append_left (by omega)]
          exact hA4 j hj)
        (fun j hj => by
          rw [List.getElem?_append_left (by omega)]
          exact hA5 j hj)
        (fun k m' hk => by
          have hk' : k < pre.length + 1 := by
            have := getElem?_lt hk
            simpa using this
          by_cases hkp : k < pre.length
          · rw [List.getElem?_append_left hkp] at hk
            obtain ⟨g1, g2⟩ := hA6 k m' hk
            constructor
            · rw [List.getElem?_append_left (by omega)]
              exact g1
            · rw [List.getElem?_append_left (by omega)]
              exact g2
          · have hkeq : k = pre.length := by omega
            subst hkeq
            rw [List.getElem?_concat_length] at hk
            obtain rfl : m = m' := Option.some_inj.mp hk
            constructor
            · have : ps0.length + pre.length = ps.length := by omega
              rw [this, List.getElem?_concat_length, hp0']
            · have : uvs0.length + pre.length = uvs.length := by omega
              rw [this, List.getElem?_concat_length, hu0']
              rfl
        )
        (fun d hd1 hd2 => by
          simp only [List.length_append, List.length_cons,
            List.length_nil] at hd2
          by_cases hdlt : d < uvs.length
          · obtain ⟨u, hu, hu1⟩ := hA7 d hd1 hdlt
            exact ⟨u, by rw [List.getElem?_append_left hdlt]; exact hu, hu1⟩
          · have hdeq : d = uvs.length := by omega
            subst hdeq
            rw [List.getElem?_concat_length]
            refine ⟨_, rfl, ?_⟩
            show (1 : α) ≤ u0m.1 + 1
            linarith [hu0B.1])
        (fun j v0 hv0 => by
          obtain ⟨hkeep, hred⟩ := hA8 j v0 hv0
          by_cases hold : v0 ∈ pre ∧ HotTri uvs0 idx0 (j / 3)
          · obtain ⟨d, u0, hdj, hdge, hdlt, hvu0, hdval⟩ := hred hold
            have hnew : idx1[j]? = some d :=
              (hchar j d hdj).2 (fun hc => by omega)
            refine ⟨fun hnot => absurd ⟨List.mem_append_left _ hold.1,
              hold.2⟩ hnot, fun _ => ⟨d, u0, hnew, hdge, ?_, hvu0, ?_⟩⟩
            · simp only [List.length_append, List.length_cons,
                List.length_nil]
              omega
            · rw [List.getElem?_append_left hdlt]
              exact hdval
          · have hcurj : idx[j]? = some v0 := hkeep hold
            by_cases hvm : v0 = m
            · have hiff := hcond_iff j v0 hv0 hvm hcurj
              by_cases hhot : HotTri uvs0 idx0 (j / 3)
              · have hnew : idx1[j]? = some ps.length :=
                  (hchar j v0 hcurj).1 ⟨hvm, hiff.mpr hhot⟩
                constructor
                · intro hnot
                  exact absurd ⟨by rw [hvm]; simp, hhot⟩ hnot
                · intro _
                  refine ⟨ps.length, u0m, hnew, by omega, ?_, ?_, ?_⟩
                  · simp only [List.length_append, List.length_cons,
                      List.length_nil]
                    omega
                  · rw [hvm]
                    exact hu0'
                  · have : ps.length = uvs.length := by omega
                    rw [this, List.getElem?_concat_length]
              · have hnew : idx1[j]? = some v0 :=
                  (hchar j v0 hcurj).2 (fun hc => hhot (hiff.mp hc.2))
                exact ⟨fun _ => hnew, fun hc => absurd hc.2 hhot⟩
            · have hnew : idx1[j]? = some v0 :=
                (hchar j v0 hcurj).2 (fun hc => hvm hc.1)
              refine ⟨fun _ => hnew, fun hc => ?_⟩
              have hvpre : v0 ∈ pre := by
                rcases List.mem_append.mp hc.1 with hin | hin
                · exact hin
                · exact absurd (List.mem_singleton.mp hin) hvm
              exact absurd ⟨hvpre, hc.2⟩ hold)
        (by
          intro j1 hj1 j2 hj2 hne hdiv
          rw [hilen] at hj1 hj2
          obtain ⟨x1, hx1⟩ : ∃ x, idx[j1]? = some x :=
            ⟨_, List.getElem?_eq_getElem hj1⟩
          obtain ⟨x2, hx2⟩ : ∃ x, idx[j2]? = some x :=
            ⟨_, List.getElem?_eq_getElem hj2⟩
          have hx1lt : x1 < uvs.length := hA10 x1 (List.getElem?_mem hx1)
          have hx2lt : x2 < uvs.length := hA10 x2 (List.getElem?_mem hx2)
          obtain ⟨g11, g12⟩ := hchar j1 x1 hx1
          obtain ⟨g21, g22⟩ := hchar j2 x2 hx2
          have hdis := hA9 j1 hj1 j2 hj2 hne hdiv
          by_cases hc1 : x1 = m ∧ redirCond uvs idx j1 <;>
            by_cases hc2 : x2 = m ∧ redirCond uvs idx j2
          · exact absurd (by rw [hx1, hx2, hc1.1, hc2.1]) hdis
          · rw [g11 hc1, g22 hc2]
            intro hcon
            obtain heq := Option.some_inj.mp hcon
            omega
          · rw [g12 hc1, g21 hc2]
            intro hcon
            obtain heq := Option.some_inj.mp hcon
            omega
          · rw [g12 hc1, g22 hc2]
            intro hcon
            rw [← hx1, ← hx2] at hcon
            exact hdis hcon)
        (by
          intro v hv
          obtain ⟨j, hj⟩ := List.mem_iff_getElem?.mp hv
          have hj1 : j < idx1.length := getElem?_lt hj
          rw [hilen] at hj1
          obtain ⟨x, hx⟩ : ∃ x, idx[j]? = some x :=
            ⟨_, List.getElem?_eq_getElem hj1⟩
          have hxlt : x < uvs.length := hA10 x (List.getElem?_mem hx)
          obtain ⟨g1, g2⟩ := hchar j x hx
          simp only [List.length_append, List.length_cons, List.length_nil]
          by_cases hc : x = m ∧ redirCond uvs idx j
          · rw [g1 hc] at hj
            obtain rfl := Option.some_inj.mp hj
            omega
          · rw [g2 hc] at hj
            obtain rfl := Option.some_inj.mp hj
            omega)
    refine ⟨ps', uvs', idx', ?_, hB1, hB2, hB3, hB4, hB5, hB6, hB8⟩
    rw [List.foldlM_cons, hsplit]
    simp only [someBind]
    exact hfold

theorem seamDetect_clean (uvs : List (α × α)) :
    ∀ (n : ℕ) (l : List ℕ), l.length ≤ n → l.length % 3 = 0 →
      (∀ v ∈ l, v < uvs.length) →
      (∀ k a b c, l[3 * k]? = some a → l[3 * k + 1]? = some b →
        l[3 * k + 2]? = some c →
        ∀ p q, ((p, q) = (a, c) ∨ (p, q) = (a, b) ∨ (p, q) = (b, c)) →
          ∀ up uq, uvs[p]? = some up → uvs[q]? = some uq →
            ¬(1 / 2 < |uq.1 - up.1|)) →
      seamDetectLoop uvs l = some [] := by
  intro n
  induction n with
  | zero =>
    intro l hlen _ _ _
    have : l = [] := List.eq_nil_of_length_eq_zero (Nat.le_zero.mp hlen)
    subst this
    rfl
  | succ m ih =>
    intro l hlen h3 hvals hclean
    match l with
    | [] => rfl
    | [x] => simp only [List.length_cons, List.length_nil] at h3; omega
    | [x, y] => simp only [List.length_cons, List.length_nil] at h3; omega
    | c0 :: c1 :: c2 :: rest =>
      have h0 : c0 < uvs.length := hvals c0 (by simp)
      have h1 : c1 < uvs.length := hvals c1 (by simp)
      have h2 : c2 < uvs.length := hvals c2 (by simp)
      have e0 : uvs[c0]? = some uvs[c0] := List.getElem?_eq_getElem h0
      have e1 : uvs[c1]? = some uvs[c1] := List.getElem?_eq_getElem h1
      have e2 : uvs[c2]? = some uvs[c2] := List.getElem?_eq_getElem h2
      have htri := hclean 0 c0 c1 c2 (by simp) (by simp) (by simp)
      have hn1 : ¬(1 / 2 < |uvs[c2].1 - uvs[c0].1|) :=
        htri c0 c2 (by simp) _ _ e0 e2
      have hn2 : ¬(1 / 2 < |uvs[c1].1 - uvs[c0].1|) :=
        htri c0 c1 (by simp) _ _ e0 e1
      have hn3 : ¬(1 / 2 < |uvs[c2].1 - uvs[c1].1|) :=
        htri c1 c2 (by simp) _ _ e1 e2
      have hrec : seamDetectLoop uvs rest = some [] := by
        refine ih rest (by simp only [List.length_cons] at hlen; omega)
          (by simp only [List.length_cons] at h3 ⊢; omega)
          (fun v hv => hvals v (by simp [hv]))
          (fun k a b c hka hkb hkc => ?_)
        have sa : (c0 :: c1 :: c2 :: rest)[3 * (k + 1)]? = rest[3 * k]? := by
          have h34 : 3 * (k + 1) = 3 * k + 2 + 1 := by omega
          rw [h34]
          simp [List.getElem?_cons_succ]
        have sb : (c0 :: c1 :: c2 :: rest)[3 * (k + 1) + 1]? =
            rest[3 * k + 1]? := by
          have h34 : 3 * (k + 1) + 1 = 3 * k + 1 + 2 + 1 := by omega
          rw [h34]
          simp [List.getElem?_cons_succ]
        have sc : (c0 :: c1 :: c2 :: rest)[3 * (k + 1) + 2]? =
            rest[3 * k + 2]? := by
          have h34 : 3 * (k + 1) + 2 = 3 * k + 2 + 2 + 1 := by omega
          rw [h34]
          simp [List.getElem?_cons_succ]
        refine hclean (k + 1) a b c ?_ ?_ ?_
        · rw [sa]; exact hka
        · rw [sb]; exact hkb
        · rw [sc]; exact hkc
      rw [seamDetectLoop, e0, e1, e2]
      simp only [someBind]
      rw [hrec]
      simp only [someBind]
      rw [if_neg hn1, if_neg hn2, if_neg hn3]
      rfl

theorem seamPass_idempotent (ps0 : List P) (uvs0 : List (α × α))
    (idx0 ms : List ℕ)
    (hW1 : uvs0.length = ps0.length)
    (hW2 : ∀ v ∈ idx0, v < ps0.length)
    (hW3 : idx0.length % 3 = 0)
    (hW4 : TriDistinct idx0)
    (hB : ∀ u ∈ uvs0, 0 ≤ u.1 ∧ u.1 ≤ 1)
    (hdet : seamDetectLoop uvs0 idx0 = some ms)
    (hsafe : ∀ (k p q : ℕ), p ∈ ms → ¬q ∈ ms → HotTri uvs0 idx0 k →
      (∃ s, s < 3 ∧ idx0[3 * k + s]? = some p) →
      (∃ s, s < 3 ∧ idx0[3 * k + s]? = some q) →
      ∀ up uq, uvs0[p]? = some up → uvs0[q]? = some uq →
        up.1 + 1 / 2 ≤ uq.1) :
    ∃ ps' uvs' idx',
      seamSplitAll (ps0, uvs0, idx0) ms = some (ps', uvs', idx') ∧
      seamDetectLoop uvs' idx' = some [] := by
  obtain ⟨ms', hdet', hMsub, hMsmall, hComp⟩ :=
    seamDetect_props uvs0 hB idx0.length idx0 le_rfl hW3
      (fun v hv => hW1 ▸ hW2 v hv)
  obtain rfl : ms = ms' := by
    rw [hdet] at hdet'
    exact Option.some_inj.mp hdet'
  have hMlt : ∀ m ∈ ms, m < ps0.length := fun m hm => hW2 m (hMsub m hm)
  obtain ⟨ps', uvs', idx', hsplit, hLp, hLu, hLi, _, hUpre, _, hSlot⟩ :=
    seamSplitAll_master ps0 uvs0 idx0 ms hW1 hW2 hW3 hW4 hB hMlt hMsmall
  refine ⟨ps', uvs', idx', hsplit, ?_⟩
  have slotVal : ∀ j v', idx'[j]? = some v' → ∃ x, uvs'[v']? = some x ∧
      ((∃ v0, idx0[j]? = some v0 ∧ v' = v0 ∧
        ¬(v0 ∈ ms ∧ HotTri uvs0 idx0 (j / 3)) ∧ uvs0[v0]? = some x) ∨
       (∃ v0 u0, idx0[j]? = some v0 ∧ v0 ∈ ms ∧ HotTri uvs0 idx0 (j / 3) ∧
        uvs0[v0]? = some u0 ∧ x = (u0.1 + 1, u0.2 + 0))) := by
    intro j v' hj
    have hjlt : j < idx0.length := hLi ▸ getElem?_lt hj
    have h0 : idx0[j]? = some idx0[j] := List.getElem?_eq_getElem hjlt
    obtain ⟨hkeep, hredir⟩ := hSlot j idx0[j] h0
    by_cases hc : idx0[j] ∈ ms ∧ HotTri uvs0 idx0 (j / 3)
    · obtain ⟨d, u0, hd, _, _, hu0, hud⟩ := hredir hc
      obtain rfl : d = v' := by
        rw [hd] at hj
        exact Option.some_inj.mp hj
      exact ⟨(u0.1 + 1, u0.2 + 0), hud,
        Or.inr ⟨idx0[j], u0, h0, hc.1, hc.2, hu0, rfl⟩⟩
    · obtain rfl : idx0[j] = v' := by
        rw [hkeep hc] at hj
        exact Option.some_inj.mp hj
      have hvlt : idx0[j] < uvs0.length :=
        hW1 ▸ hW2 _ (List.getElem?_mem h0)
      refine ⟨uvs0[idx0[j]], ?_, Or.inl ⟨idx0[j], h0, rfl, hc,
        List.getElem?_eq_getElem hvlt⟩⟩
      rw [hUpre _ hvlt]
      exact List.getElem?_eq_getElem hvlt
  refine seamDetect_clean uvs' idx'.length idx' le_rfl (by rw [hLi]; exact hW3)
    ?_ ?_
  · intro v hv
    obtain ⟨j, hj⟩ := List.mem_iff_getElem?.mp hv
    obtain ⟨x, hx, hcase⟩ := slotVal j v hj
    exact getElem?_lt hx
  · intro k a b c hka hkb hkc p q hpq up uq hup huq
    have hlta : 3 * k < idx0.length := hLi ▸ getElem?_lt hka
    have hltb : 3 * k + 1 < idx0.length := hLi ▸ getElem?_lt hkb
    have hltc : 3 * k + 2 < idx0.length := hLi ▸ getElem?_lt hkc
    have ha0 : idx0[3 * k]? = some idx0[3 * k] := List.getElem?_eq_getElem hlta
    have hb0 : idx0[3 * k + 1]? = some idx0[3 * k + 1] :=
      List.getElem?_eq_getElem hltb
    have hc0 : idx0[3 * k + 2]? = some idx0[3 * k + 2] :=
      List.getElem?_eq_getElem hltc
    have comp_full := hComp k idx0[3 * k] idx0[3 * k + 1] idx0[3 * k + 2]
      ha0 hb0 hc0
    have main : ∀ jp jq, jp / 3 = k → jq / 3 = k →
        (∀ (v0p v0q : ℕ), idx0[jp]? = some v0p → idx0[jq]? = some v0q →
          ∀ u0p u0q, uvs0[v0p]? = some u0p → uvs0[v0q]? = some u0q →
            1 / 2 < |u0q.1 - u0p.1| → v0p ∈ ms ∨ v0q ∈ ms) →
        ∀ vp vq, idx'[jp]? = some vp → idx'[jq]? = some vq →
        ∀ xp xq, uvs'[vp]? = some xp → uvs'[vq]? = some xq →
          ¬(1 / 2 < |xq.1 - xp.1|) := by
      intro jp jq hjp3 hjq3 hcomp vp vq hjp hjq xp xq hxp hxq
      obtain ⟨xp', hxp', casep⟩ := slotVal jp vp hjp
      obtain rfl : xp = xp' := by
        rw [hxp'] at hxp
        exact (Option.some_inj.mp hxp).symm
      obtain ⟨xq', hxq', caseq⟩ := slotVal jq vq hjq
      obtain rfl : xq = xq' := by
        rw [hxq'] at hxq
        exact (Option.some_inj.mp hxq).symm
      rw [hjp3] at casep
      rw [hjq3] at caseq
      rcases casep with ⟨v0p, h0p, hvp, hnp, hu0p⟩ |
        ⟨v0p, u0p, h0p, hmp, hhotp, hu0p, hxpe⟩
      · rcases caseq with ⟨v0q, h0q, hvq, hnq, hu0q⟩ |
          ⟨v0q, u0q, h0q, hmq, hhotq, hu0q, hxqe⟩
        · -- kept / kept
          have hbp := hB xp (List.getElem?_mem hu0p)
          have hbq := hB xq (List.getElem?_mem hu0q)
          by_cases hhot : HotTri uvs0 idx0 k
          · have hpnot : ¬v0p ∈ ms := fun hin => hnp ⟨hin, hhot⟩
            have hqnot : ¬v0q ∈ ms := fun hin => hnq ⟨hin, hhot⟩
            intro hgt
            rcases hcomp v0p v0q h0p h0q xp xq hu0p hu0q hgt with hin | hin
            · exact hpnot hin
            · exact hqnot hin
          · have hple : xp.1 ≤ 1 / 2 := by
              by_contra hgt
              push_neg at hgt
              exact hhot ⟨jp % 3, by omega, v0p, xp,
                by rw [show 3 * k + jp % 3 = jp by omega]; exact h0p,
                hu0p, hgt⟩
            have hqle : xq.1 ≤ 1 / 2 := by
              by_contra hgt
              push_neg at hgt
              exact hhot ⟨jq % 3, by omega, v0q, xq,
                by rw [show 3 * k + jq % 3 = jq by omega]; exact h0q,
                hu0q, hgt⟩
            rw [not_lt]
            refine abs_le.mpr ⟨by linarith [hbp.1, hbq.1], ?_⟩
            linarith [hbp.1, hbq.1]
        · -- kept p / redirected q
          have hpnot : ¬v0p ∈ ms := fun hin => hnp ⟨hin, hhotq⟩
          have hss := hsafe k v0q v0p hmq hpnot hhotq
            ⟨jq % 3, by omega,
              by rw [show 3 * k + jq % 3 = jq by omega]; exact h0q⟩
            ⟨jp % 3, by omega,
              by rw [show 3 * k + jp % 3 = jp by omega]; exact h0p⟩
            u0q xp hu0q hu0p
          have hbp := hB xp (List.getElem?_mem hu0p)
          have hbq := hB u0q (List.getElem?_mem hu0q)
          have hxq1 : xq.1 = u0q.1 + 1 := by rw [hxqe]
          rw [not_lt]
          refine abs_le.mpr ⟨?_, ?_⟩
          · rw [hxq1]
            linarith [hbp.2, hbq.1]
          · rw [hxq1]
            linarith
      · rcases caseq with ⟨v0q, h0q, hvq, hnq, hu0q⟩ |
          ⟨v0q, u0q, h0q, hmq, hhotq, hu0q, hxqe⟩
        · -- redirected p / kept q
          have hqnot : ¬v0q ∈ ms := fun hin => hnq ⟨hin, hhotp⟩
          have hss := hsafe k v0p v0q hmp hqnot hhotp
            ⟨jp % 3, by omega,
              by rw [show 3 * k + jp % 3 = jp by omega]; exact h0p⟩
            ⟨jq % 3, by omega,
              by rw [show 3 * k + jq % 3 = jq by omega]; exact h0q⟩
            u0p xq hu0p hu0q
          have hbp := hB u0p (List.getElem?_mem hu0p)
          have hbq := hB xq (List.getElem?_mem hu0q)
          have hxp1 : xp.1 = u0p.1 + 1 := by rw [hxpe]
          rw [not_lt]
          refine abs_le.mpr ⟨?_, ?_⟩
          · rw [hxp1]
            linarith
          · rw [hxp1]
            linarith [hbq.2, hbp.1]
        · -- redirected / redirected
          obtain ⟨up', hup', hups⟩ := hMsmall v0p hmp
          obtain rfl : u0p = up' := by
            rw [hu0p] at hup'
            exact Option.some_inj.mp hup'
          obtain ⟨uq', huq', huqs⟩ := hMsmall v0q hmq
          obtain rfl : u0q = uq' := by
            rw [hu0q] at huq'
            exact Option.some_inj.mp huq'
          have hbp := hB u0p (List.getElem?_mem hu0p)
          have hbq := hB u0q (List.getElem?_mem hu0q)
          have hxp1 : xp.1 = u0p.1 + 1 := by rw [hxpe]
          have hxq1 : xq.1 = u0q.1 + 1 := by rw [hxqe]
          rw [not_lt]
          refine abs_le.mpr ⟨?_, ?_⟩
          · rw [hxp1, hxq1]
            linarith [hbq.1]
          · rw [hxp1, hxq1]
            linarith [hbp.1]
    rcases hpq with hpq | hpq | hpq
    · simp only [Prod.mk.injEq] at hpq
      obtain ⟨rfl, rfl⟩ := hpq
      refine main (3 * k) (3 * k + 2) (by omega) (by omega)
        ?_ p q hka hkc up uq hup huq
      intro v0p v0q h0p h0q u0p u0q hu hv hgt
      obtain rfl : v0p = idx0[3 * k] := by
        rw [h0p] at ha0
        exact Option.some_inj.mp ha0
      obtain rfl : v0q = idx0[3 * k + 2] := by
        rw [h0q] at hc0
        exact Option.some_inj.mp hc0
      exact comp_full _ _ (Or.inl rfl) u0p u0q hu hv hgt
    · simp only [Prod.mk.injEq] at hpq
      obtain ⟨rfl, rfl⟩ := hpq
      refine main (3 * k) (3 * k + 1) (by omega) (by omega)
        ?_ p q hka hkb up uq hup huq
      intro v0p v0q h0p h0q u0p u0q hu hv hgt
      obtain rfl : v0p = idx0[3 * k] := by
        rw [h0p] at ha0
        exact Option.some_inj.mp ha0
      obtain rfl : v0q = idx0[3 * k + 1] := by
        rw [h0q] at hb0
        exact Option.some_inj.mp hb0
      exact comp_full _ _ (Or.inr (Or.inl rfl)) u0p u0q hu hv hgt
    · simp only [Prod.mk.injEq] at hpq
      obtain ⟨rfl, rfl⟩ := hpq
      refine main (3 * k + 1) (3 * k + 2) (by omega) (by omega)
        ?_ p q hkb hkc up uq hup huq
      intro v0p v0q h0p h0q u0p u0q hu hv hgt
      obtain rfl : v0p = idx0[3 * k + 1] := by
        rw [h0p] at hb0
        exact Option.some_inj.mp hb0
      obtain rfl : v0q = idx0[3 * k + 2] := by
        rw [h0q] at hc0
        exact Option.some_inj.mp hc0
      exact comp_full _ _ (Or.inr (Or.inr rfl)) u0p u0q hu hv hgt

/-- C3: the icosphere seam fix is idempotent. If the detection pass
(mesh.rs:358-377) over well-formed mesh data reports the marked vertices
`ms`, then the duplication-and-redirect pass (mesh.rs:387-403) succeeds, and
running the detection pass again on the resulting UV and index lists finds
zero seam-crossing pairs (returns `some []`). The side conditions are those
the icosphere data satisfies: UVs in `[0,1]`, one UV per position, in-range
indices, triangle-local index distinctness, and the `SeamSafe` separation of
marked from unmarked corners within each seam triangle. -/
theorem seam_split_idempotent (ps0 : List P) (uvs0 : List (α × α))
    (idx0 ms : List ℕ)
    (hW1 : uvs0.length = ps0.length)
    (hW2 : ∀ v ∈ idx0, v < ps0.length)
    (hW3 : idx0.length % 3 = 0)
    (hW4 : TriDistinct idx0)
    (hB : ∀ u ∈ uvs0, 0 ≤ u.1 ∧ u.1 ≤ 1)
    (hdet : seamDetectLoop uvs0 idx0 = some ms)
    (hsafe : SeamSafe uvs0 idx0 ms) :
    ∃ ps' uvs' idx',
      seamSplitAll (ps0, uvs0, idx0) ms = some (ps', uvs', idx') ∧
      seamDetectLoop uvs' idx' = some [] := by
  refine seamPass_idempotent ps0 uvs0 idx0 ms hW1 hW2 hW3 hW4 hB hdet ?_
  intro k p q hp hq hhot hep heq up uq hup huq
  obtain ⟨sp, hsp, hip⟩ := hep
  obtain ⟨sq, hsq, hiq⟩ := heq
  have hklt : k < idx0.length / 3 := by
    have := getElem?_lt hip
    omega
  have hgp : idx0.getD (3 * k + sp) 0 = p := by
    rw [List.getD_eq_getElem?_getD, hip]
    rfl
  have hgq : idx0.getD (3 * k + sq) 0 = q := by
    rw [List.getD_eq_getElem?_getD, hiq]
    rfl
  have hhd : ∃ s, s < 3 ∧
      1 / 2 < (uvs0.getD (idx0.getD (3 * k + s) 0) (0, 0)).1 := by
    obtain ⟨s, hs, v, u, hiv, huv, hgt⟩ := hhot
    have hgv : idx0.getD (3 * k + s) 0 = v := by
      rw [List.getD_eq_getElem?_getD, hiv]
      rfl
    refine ⟨s, hs, ?_⟩
    rw [hgv, List.getD_eq_getElem?_getD, huv, Option.getD_some]
    exact hgt
  have hres := hsafe k hklt hhd sp hsp sq hsq (by rw [hgp]; exact hp)
    (by rw [hgq]; exact hq)
  rw [hgp, hgq, List.getD_eq_getElem?_getD, hup, Option.getD_some,
    List.getD_eq_getElem?_getD, huq, Option.getD_some] at hres
  exact hres

end

theorem phi_sq_add_one_pos : 0 < phi * phi + 1 := by
  nlinarith [sq_nonneg phi, sq_abs phi]

theorem invNorm_mul : invNorm * invNorm * (phi * phi + 1) = 1 := by
  have ha : 0 < phi * phi + 1 := phi_sq_add_one_pos
  have hs : Real.sqrt (phi * phi + 1) * Real.sqrt (phi * phi + 1) =
      phi * phi + 1 := Real.mul_self_sqrt ha.le
  have hsnz : Real.sqrt (phi * phi + 1) ≠ 0 :=
    ne_of_gt (Real.sqrt_pos.mpr ha)
  rw [invNorm]
  field_simp

theorem norm3_smul_invNorm (v : V3R) (hv : dot3 v v = phi * phi + 1) :
    norm3 (smul3 invNorm v) = 1 := by
  rw [norm3]
  have hd : dot3 (smul3 invNorm v) (smul3 invNorm v) =
      invNorm * invNorm * (phi * phi + 1) := by
    rw [← hv]
    simp only [dot3, smul3]
    ring
  rw [hd, invNorm_mul, Real.sqrt_one]

theorem basePositions_unit : ∀ p ∈ basePositions, norm3 p = 1 := by
  intro p hp
  fin_cases hp <;> apply norm3_smul_invNorm <;> simp only [dot3] <;> ring

theorem sqrt5_sq : sqrt5 * sqrt5 = 5 :=
  Real.mul_self_sqrt (by norm_num)

theorem phi_sq : phi * phi = phi + 1 := by
  rw [phi]
  linear_combination (1 / 4 : ℝ) * sqrt5_sq

theorem phi_pos : 0 < phi := by
  rw [phi]
  have := Real.sqrt_nonneg (5 : ℝ)
  rw [sqrt5]
  linarith

theorem invNorm_pos : 0 < invNorm := by
  rw [invNorm]
  exact div_pos one_pos (Real.sqrt_pos.mpr phi_sq_add_one_pos)

theorem dot3_self_nonneg (v : V3R) : 0 ≤ dot3 v v := by
  simp only [dot3]
  nlinarith [sq_nonneg v.1, sq_nonneg v.2.1, sq_nonneg v.2.2]

theorem norm3_sq (v : V3R) : norm3 v * norm3 v = dot3 v v :=
  Real.mul_self_sqrt (dot3_self_nonneg v)

theorem norm3_pos (v : V3R) (h : 0 < dot3 v v) : 0 < norm3 v :=
  Real.sqrt_pos.mpr h

theorem dot3_unit (v : V3R) (h : norm3 v = 1) : dot3 v v = 1 := by
  rw [← norm3_sq, h, one_mul]

theorem norm3_smul (c : ℝ) (v : V3R) (hc : 0 ≤ c) :
    norm3 (smul3 c v) = c * norm3 v := by
  have hd : dot3 (smul3 c v) (smul3 c v) = c * c * dot3 v v := by
    simp only [dot3, smul3]
    ring
  rw [norm3, hd, Real.sqrt_mul (mul_self_nonneg c), norm3,
    Real.sqrt_mul_self hc]

theorem dot3_smul_right (c : ℝ) (v w : V3R) :
    dot3 v (smul3 c w) = c * dot3 v w := by
  simp only [dot3, smul3]
  ring

theorem dot3_smul_left (c : ℝ) (v w : V3R) :
    dot3 (smul3 c v) w = c * dot3 v w := by
  simp only [dot3, smul3]
  ring

theorem dot3_add_add (a b c d : V3R) :
    dot3 (add3 a b) (add3 c d) =
      dot3 a c + dot3 a d + dot3 b c + dot3 b d := by
  simp only [dot3, add3]
  ring

theorem dot3_add_right (v a b : V3R) :
    dot3 v (add3 a b) = dot3 v a + dot3 v b := by
  simp only [dot3, add3]
  ring

theorem dot3_comm (v w : V3R) : dot3 v w = dot3 w v := by
  simp only [dot3]
  ring

theorem norm3_normalize (w : V3R) (h : 0 < dot3 w w) :
    norm3 (normalize3 w) = 1 := by
  have hn := norm3_pos w h
  rw [normalize3, norm3_smul _ _ (le_of_lt (by positivity)), one_div,
    inv_mul_cancel₀ (ne_of_gt hn)]

theorem dot3_normalize_right (v w : V3R) (hw : 0 < dot3 w w)
    (h : 0 < dot3 v w) : 0 < dot3 v (normalize3 w) := by
  rw [normalize3, dot3_smul_right]
  have := norm3_pos w hw
  positivity

theorem dot3_normalize_left (v w : V3R) (hv : 0 < dot3 v v)
    (h : 0 < dot3 v w) : 0 < dot3 (normalize3 v) w := by
  rw [normalize3, dot3_smul_left]
  have := norm3_pos v hv
  positivity

theorem dot3_normalize_both (v w : V3R) (hv : 0 < dot3 v v)
    (hw : 0 < dot3 w w) (h : 0 < dot3 v w) :
    0 < dot3 (normalize3 v) (normalize3 w) := by
  apply dot3_normalize_left _ _ hv
  exact dot3_normalize_right v w hw h

theorem base_pair (ra rb : V3R) (h : dot3 ra rb = phi) :
    0 < dot3 (smul3 invNorm ra) (smul3 invNorm rb) := by
  rw [dot3_smul_left, dot3_smul_right, h]
  exact mul_pos invNorm_pos (mul_pos invNorm_pos phi_pos)

theorem baseTriDots : TriDots basePositions baseIndices := by
  intro k a b c hka hkb hkc va vb vc hva hvb hvc
  have hk : k < 20 := by
    have := getElem?_lt hka
    simp only [baseIndices] at this
    simp only [List.length_cons, List.length_nil] at this
    omega
  interval_cases k <;>
    · simp only [baseIndices, Nat.reduceMul, Nat.reduceAdd,
        List.getElem?_cons_zero, List.getElem?_cons_succ,
        Option.some_inj] at hka hkb hkc
      subst hka
      subst hkb
      subst hkc
      simp only [basePositions, List.getElem?_cons_zero,
        List.getElem?_cons_succ, Option.some_inj] at hva hvb hvc
      subst hva
      subst hvb
      subst hvc
      refine ⟨base_pair _ _ ?_, base_pair _ _ ?_, base_pair _ _ ?_⟩ <;>
        · simp only [dot3]
          first
          | ring1
          | linear_combination phi_sq

theorem triDots_single (ps : List V3R) (x y z : ℕ) (vx vy vz : V3R)
    (hx : ps[x]? = some vx) (hy : ps[y]? = some vy) (hz : ps[z]? = some vz)
    (d1 : 0 < dot3 vx vy) (d2 : 0 < dot3 vy vz) (d3 : 0 < dot3 vx vz) :
    TriDots ps [x, y, z] := by
  intro k a b c hka hkb hkc va vb vc hva hvb hvc
  match k with
  | 0 =>
    simp only [Nat.mul_zero, Nat.zero_add, List.getElem?_cons_zero,
      List.getElem?_cons_succ, Option.some_inj] at hka hkb hkc
    subst hka
    subst hkb
    subst hkc
    rw [hx] at hva
    rw [hy] at hvb
    rw [hz] at hvc
    obtain rfl : vx = va := Option.some_inj.mp hva
    obtain rfl : vy = vb := Option.some_inj.mp hvb
    obtain rfl : vz = vc := Option.some_inj.mp hvc
    exact ⟨d1, d2, d3⟩
  | k + 1 =>
    rw [show 3 * (k + 1) = 3 * k + 1 + 1 + 1 by omega] at hka
    simp only [List.getElem?_cons_succ, List.getElem?_nil] at hka
    exact Option.noConfusion hka

theorem triDots_append (ps : List V3R) (pre post : List ℕ)
    (h3 : pre.length % 3 = 0) (hpre : TriDots ps pre)
    (hpost : TriDots ps post) : TriDots ps (pre ++ post) := by
  intro k a b c hka hkb hkc va vb vc hva hvb hvc
  by_cases hlt : 3 * k + 2 < pre.length
  · rw [List.getElem?_append_left (by omega)] at hka
    rw [List.getElem?_append_left (by omega)] at hkb
    rw [List.getElem?_append_left hlt] at hkc
    exact hpre k a b c hka hkb hkc va vb vc hva hvb hvc
  · have hge : pre.length ≤ 3 * k := by omega
    rw [List.getElem?_append_right hge,
      show 3 * k - pre.length = 3 * (k - pre.length / 3) by omega] at hka
    rw [List.getElem?_append_right (by omega),
      show 3 * k + 1 - pre.length = 3 * (k - pre.length / 3) + 1
        by omega] at hkb
    rw [List.getElem?_append_right (by omega),
      show 3 * k + 2 - pre.length = 3 * (k - pre.length / 3) + 2
        by omega] at hkc
    exact hpost (k - pre.length / 3) a b c hka hkb hkc va vb vc hva hvb hvc

theorem triDots_cons3 (ps : List V3R) (a b c : ℕ) (r : List ℕ)
    (h : TriDots ps (a :: b :: c :: r)) : TriDots ps r := by
  intro k x y z hkx hky hkz vx vy vz hvx hvy hvz
  refine h (k + 1) x y z ?_ ?_ ?_ vx vy vz hvx hvy hvz
  · rw [show 3 * (k + 1) = 3 * k + 1 + 1 + 1 by omega]
    simpa only [List.getElem?_cons_succ] using hkx
  · rw [show 3 * (k + 1) + 1 = 3 * k + 1 + 1 + 1 + 1 by omega]
    simpa only [List.getElem?_cons_succ] using hky
  · rw [show 3 * (k + 1) + 2 = 3 * k + 2 + 1 + 1 + 1 by omega]
    simpa only [List.getElem?_cons_succ] using hkz

theorem triDistinct_three (x y z : ℕ) (h1 : x ≠ y) (h2 : y ≠ z)
    (hx : x ≠ z) : TriDistinct [x, y, z] := by
  intro j1 hj1 j2 hj2 hne hdiv
  simp only [List.length_cons, List.length_nil] at hj1 hj2
  interval_cases j1 <;> interval_cases j2 <;> simp_all <;> omega

theorem triDistinct_append (pre post : List ℕ) (h3 : pre.length % 3 = 0)
    (hpre : TriDistinct pre) (hpost : TriDistinct post) :
    TriDistinct (pre ++ post) := by
  intro j1 h1 j2 h2 hne hdiv
  simp only [List.length_append] at h1 h2
  by_cases c1 : j1 < pre.length <;> by_cases c2 : j2 < pre.length
  · rw [List.getElem?_append_left c1, List.getElem?_append_left c2]
    exact hpre j1 c1 j2 c2 hne hdiv
  · exact absurd hdiv (by omega)
  · exact absurd hdiv (by omega)
  · rw [List.getElem?_append_right (by omega),
      List.getElem?_append_right (by omega)]
    exact hpost (j1 - pre.length) (by omega) (j2 - pre.length) (by omega)
      (by omega) (by omega)

theorem triDistinct_cons3 (a b c : ℕ) (r : List ℕ)
    (h : TriDistinct (a :: b :: c :: r)) : TriDistinct r := by
  intro j1 h1 j2 h2 hne hdiv
  have hr := h (j1 + 1 + 1 + 1)
    (by simp only [List.length_cons]; omega) (j2 + 1 + 1 + 1)
    (by simp only [List.length_cons]; omega) (by omega) (by omega)
  simpa only [List.getElem?_cons_succ] using hr

/-- Through one pass of the tessellation loop, positions keep unit norm (the
appended midpoints are normalized sums of two unit vectors at acute angle),
old slots are untouched, and both per-triangle invariants (pairwise positive
dots, pairwise distinct corners) are preserved. -/
theorem subdivideChunks_sphere :
    ∀ (n : ℕ) (idx : List ℕ) (ps : List V3R),
      idx.length ≤ n → idx.length % 3 = 0 → (∀ i ∈ idx, i < ps.length) →
      (∀ p ∈ ps, norm3 p = 1) → TriDots ps idx → TriDistinct idx →
      ∃ ps' idx', subdivideChunks idx ps = some (ps', idx') ∧
        (∀ j, j < ps.length → ps'[j]? = ps[j]?) ∧
        (∀ p ∈ ps', norm3 p = 1) ∧ TriDots ps' idx' ∧ TriDistinct idx' := by
  intro n
  induction n with
  | zero =>
    intro idx ps hlen _ _ hunit hdots hdist
    have : idx = [] := List.eq_nil_of_length_eq_zero (Nat.le_zero.mp hlen)
    subst this
    exact ⟨ps, [], rfl, fun j _ => rfl, hunit,
      fun k a b c hka _ _ => by simp at hka,
      fun j1 h1 => by simp at h1⟩
  | succ m ih =>
    intro idx ps hlen h3 hvalid hunit hdots hdist
    match idx with
    | [] =>
      exact ⟨ps, [], rfl, fun j _ => rfl, hunit,
        fun k a b c hka _ _ => by simp at hka,
        fun j1 h1 => by simp at h1⟩
    | [a] => simp only [List.length_cons, List.length_nil] at h3; omega
    | [a, b] => simp only [List.length_cons, List.length_nil] at h3; omega
    | a :: b :: c :: rest =>
      have ha : a < ps.length := hvalid a (by simp)
      have hb : b < ps.length := hvalid b (by simp)
      have hc : c < ps.length := hvalid c (by simp)
      obtain ⟨dab, dbc, dac⟩ := hdots 0 a b c (by simp) (by simp) (by simp)
        ps[a] ps[b] ps[c] (List.getElem?_eq_getElem ha)
        (List.getElem?_eq_getElem hb) (List.getElem?_eq_getElem hc)
      have h1a : dot3 ps[a] ps[a] = 1 :=
        dot3_unit _ (hunit _ (List.getElem_mem ha))
      have h1b : dot3 ps[b] ps[b] = 1 :=
        dot3_unit _ (hunit _ (List.getElem_mem hb))
      have h1c : dot3 ps[c] ps[c] = 1 :=
        dot3_unit _ (hunit _ (List.getElem_mem hc))
      have hsab : 0 < dot3 (add3 ps[a] ps[b]) (add3 ps[a] ps[b]) := by
        rw [dot3_add_add, dot3_comm ps[b] ps[a], h1a, h1b]
        linarith
      have hsbc : 0 < dot3 (add3 ps[b] ps[c]) (add3 ps[b] ps[c]) := by
        rw [dot3_add_add, dot3_comm ps[c] ps[b], h1b, h1c]
        linarith
      have hsac : 0 < dot3 (add3 ps[a] ps[c]) (add3 ps[a] ps[c]) := by
        rw [dot3_add_add, dot3_comm ps[c] ps[a], h1a, h1c]
        linarith
      have hunit1 : ∀ p ∈ ps ++ [normalize3 (add3 ps[a] ps[b]),
          normalize3 (add3 ps[b] ps[c]), normalize3 (add3 ps[a] ps[c])],
          norm3 p = 1 := by
        intro p hp
        rcases List.mem_append.mp hp with h | h
        · exact hunit p h
        · simp only [List.mem_cons, List.not_mem_nil, or_false] at h
          rcases h with rfl | rfl | rfl
          · exact norm3_normalize _ hsab
          · exact norm3_normalize _ hsbc
          · exact norm3_normalize _ hsac
      have hdrest1 : TriDots (ps ++ [normalize3 (add3 ps[a] ps[b]),
          normalize3 (add3 ps[b] ps[c]), normalize3 (add3 ps[a] ps[c])])
          rest := by
        intro k x y z hkx hky hkz vx vy vz hvx hvy hvz
        have hxm : x ∈ rest := List.getElem?_mem hkx
        have hym : y ∈ rest := List.getElem?_mem hky
        have hzm : z ∈ rest := List.getElem?_mem hkz
        rw [List.getElem?_append_left (hvalid x (by simp [hxm]))] at hvx
        rw [List.getElem?_append_left (hvalid y (by simp [hym]))] at hvy
        rw [List.getElem?_append_left (hvalid z (by simp [hzm]))] at hvz
        exact triDots_cons3 ps a b c rest hdots k x y z hkx hky hkz
          vx vy vz hvx hvy hvz
      obtain ⟨ps', idx', hrec, hpre', hunit', hdots', hdistOut⟩ :=
        ih rest (ps ++ [normalize3 (add3 ps[a] ps[b]),
            normalize3 (add3 ps[b] ps[c]), normalize3 (add3 ps[a] ps[c])])
          (by simp only [List.length_cons] at hlen; omega)
          (by simp only [List.length_cons] at h3 ⊢; omega)
          (fun i hi => by
            have := hvalid i (by simp [hi])
            simp only [List.length_append, List.length_cons, List.length_nil]
            omega)
          hunit1 hdrest1 (triDistinct_cons3 a b c rest hdist)
      have hps1len : ps.length + 3 = (ps ++ [normalize3 (add3 ps[a] ps[b]),
          normalize3 (add3 ps[b] ps[c]),
          normalize3 (add3 ps[a] ps[c])]).length := by
        simp only [List.length_append, List.length_cons, List.length_nil]
      have hpa : ps'[a]? = some ps[a] := by
        rw [hpre' a (by omega), List.getElem?_append_left ha]
        exact List.getElem?_eq_getElem ha
      have hpb : ps'[b]? = some ps[b] := by
        rw [hpre' b (by omega), List.getElem?_append_left hb]
        exact List.getElem?_eq_getElem hb
      have hpc : ps'[c]? = some ps[c] := by
        rw [hpre' c (by omega), List.getElem?_append_left hc]
        exact List.getElem?_eq_getElem hc
      have hpL : ps'[ps.length]? = some (normalize3 (add3 ps[a] ps[b])) := by
        rw [hpre' ps.length (by omega), List.getElem?_append_right le_rfl]
        simp
      have hpL1 : ps'[ps.length + 1]? =
          some (normalize3 (add3 ps[b] ps[c])) := by
        rw [hpre' (ps.length + 1) (by omega),
          List.getElem?_append_right (by omega)]
        simp
      have hpL2 : ps'[ps.length + 2]? =
          some (normalize3 (add3 ps[a] ps[c])) := by
        rw [hpre' (ps.length + 2) (by omega),
          List.getElem?_append_right (by omega)]
        simp
      have hd_am1 : 0 < dot3 ps[a] (normalize3 (add3 ps[a] ps[b])) := by
        refine dot3_normalize_right _ _ hsab ?_
        rw [dot3_add_right, h1a]
        linarith
      have hd_am3 : 0 < dot3 ps[a] (normalize3 (add3 ps[a] ps[c])) := by
        refine dot3_normalize_right _ _ hsac ?_
        rw [dot3_add_right, h1a]
        linarith
      have hd_bm2 : 0 < dot3 ps[b] (normalize3 (add3 ps[b] ps[c])) := by
        refine dot3_normalize_right _ _ hsbc ?_
        rw [dot3_add_right, h1b]
        linarith
      have hd_bm1 : 0 < dot3 ps[b] (normalize3 (add3 ps[a] ps[b])) := by
        refine dot3_normalize_right _ _ hsab ?_
        rw [dot3_add_right, dot3_comm ps[b] ps[a], h1b]
        linarith
      have hd_cm3 : 0 < dot3 ps[c] (normalize3 (add3 ps[a] ps[c])) := by
        refine dot3_normalize_right _ _ hsac ?_
        rw [dot3_add_right, dot3_comm ps[c] ps[a], h1c]
        linarith
      have hd_cm2 : 0 < dot3 ps[c] (normalize3 (add3 ps[b] ps[c])) := by
        refine dot3_normalize_right _ _ hsbc ?_
        rw [dot3_add_right, dot3_comm ps[c] ps[b], h1c]
        linarith
      have hd_m1m3 : 0 < dot3 (normalize3 (add3 ps[a] ps[b]))
          (normalize3 (add3 ps[a] ps[c])) := by
        refine dot3_normalize_both _ _ hsab hsac ?_
        rw [dot3_add_add, dot3_comm ps[b] ps[a], h1a]
        linarith
      have hd_m2m1 : 0 < dot3 (normalize3 (add3 ps[b] ps[c]))
          (normalize3 (add3 ps[a] ps[b])) := by
        refine dot3_normalize_both _ _ hsbc hsab ?_
        rw [dot3_add_add, dot3_comm ps[b] ps[a], dot3_comm ps[c] ps[a],
          dot3_comm ps[c] ps[b], h1b]
        linarith
      have hd_m3m2 : 0 < dot3 (normalize3 (add3 ps[a] ps[c]))
          (normalize3 (add3 ps[b] ps[c])) := by
        refine dot3_normalize_both _ _ hsac hsbc ?_
        rw [dot3_add_add, dot3_comm ps[c] ps[b], h1c]
        linarith
      have hd_m1m2 : 0 < dot3 (normalize3 (add3 ps[a] ps[b]))
          (normalize3 (add3 ps[b] ps[c])) := by
        refine dot3_normalize_both _ _ hsab hsbc ?_
        rw [dot3_add_add, h1b]
        linarith
      have hd_m2m3 : 0 < dot3 (normalize3 (add3 ps[b] ps[c]))
          (normalize3 (add3 ps[a] ps[c])) := by
        refine dot3_normalize_both _ _ hsbc hsac ?_
        rw [dot3_add_add, dot3_comm ps[b] ps[a], dot3_comm ps[c] ps[a], h1c]
        linarith
      refine ⟨ps', [a, ps.length, ps.length + 2, b, ps.length + 1, ps.length,
        c, ps.length + 2, ps.length + 1, ps.length, ps.length + 1,
        ps.length + 2] ++ idx', ?_, ?_, hunit', ?_, ?_⟩
      · rw [subdivideChunks, List.getElem?_eq_getElem ha,
          List.getElem?_eq_getElem hb, List.getElem?_eq_getElem hc]
        simp only [someBind]
        rw [hrec]
        simp only [someBind]
      · intro j hj
        rw [hpre' j (by omega), List.getElem?_append_left hj]
      · have hsplit : ([a, ps.length, ps.length + 2, b, ps.length + 1,
            ps.length, c, ps.length + 2, ps.length + 1, ps.length,
            ps.length + 1, ps.length + 2] : List ℕ) =
            [a, ps.length, ps.length + 2] ++ ([b, ps.length + 1, ps.length] ++
              ([c, ps.length + 2, ps.length + 1] ++
                [ps.length, ps.length + 1, ps.length + 2])) := rfl
        rw [hsplit]
        refine triDots_append ps' _ idx' (by simp) ?_ hdots'
        refine triDots_append ps' _ _ (by simp)
          (triDots_single ps' _ _ _ _ _ _ hpa hpL hpL2 hd_am1 hd_m1m3 hd_am3)
          ?_
        refine triDots_append ps' _ _ (by simp)
          (triDots_single ps' _ _ _ _ _ _ hpb hpL1 hpL hd_bm2 hd_m2m1 hd_bm1)
          ?_
        exact triDots_append ps' _ _ (by simp)
          (triDots_single ps' _ _ _ _ _ _ hpc hpL2 hpL1 hd_cm3 hd_m3m2
            hd_cm2)
          (triDots_single ps' _ _ _ _ _ _ hpL hpL1 hpL2 hd_m1m2 hd_m2m3
            hd_m1m3)
      · have hsplit : ([a, ps.length, ps.length + 2, b, ps.length + 1,
            ps.length, c, ps.length + 2, ps.length + 1, ps.length,
            ps.length + 1, ps.length + 2] : List ℕ) ++ idx' =
            [a, ps.length, ps.length + 2] ++ ([b, ps.length + 1, ps.length] ++
              ([c, ps.length + 2, ps.length + 1] ++
                ([ps.length, ps.length + 1, ps.length + 2] ++ idx'))) := by
          simp
        rw [hsplit]
        refine triDistinct_append _ _ (by simp)
          (triDistinct_three _ _ _ (by omega) (by omega) (by omega)) ?_
        refine triDistinct_append _ _ (by simp)
          (triDistinct_three _ _ _ (by omega) (by omega) (by omega)) ?_
        refine triDistinct_append _ _ (by simp)
          (triDistinct_three _ _ _ (by omega) (by omega) (by omega)) ?_
        exact triDistinct_append _ _ (by simp)
          (triDistinct_three _ _ _ (by omega) (by omega) (by omega)) hdistOut

/-- The full subdivision state is well-formed at every iteration count:
exact index and position counts, in-range indices, unit positions, and the
two per-triangle invariants. -/
theorem subdivN_sphere : ∀ it : ℕ, ∃ ps idx, subdivN it = some (ps, idx) ∧
    idx.length = 60 * 4 ^ it ∧ ps.length = 12 + 20 * (4 ^ it - 1) ∧
    (∀ i ∈ idx, i < ps.length) ∧ idx.length % 3 = 0 ∧
    (∀ p ∈ ps, norm3 p = 1) ∧ TriDots ps idx ∧ TriDistinct idx := by
  intro it
  induction it with
  | zero =>
    refine ⟨basePositions, baseIndices, rfl, by decide, by decide, ?_,
      by decide, basePositions_unit, baseTriDots, by decide⟩
    intro i hi
    rw [basePositions_length]
    fin_cases hi <;> omega
  | succ k ih =>
    obtain ⟨ps, idx, hsub, hil, hpl, hvalid, h3, hunit, hdots, hdist⟩ := ih
    obtain ⟨ps1, idx1, hrec, hpl1, hil1, hval1⟩ :=
      subdivideChunks_go idx.length idx ps le_rfl h3 hvalid
    obtain ⟨ps2, idx2, hrec2, _, hunit2, hdots2, hdist2⟩ :=
      subdivideChunks_sphere idx.length idx ps le_rfl h3 hvalid hunit hdots
        hdist
    rw [hrec] at hrec2
    obtain ⟨rfl, rfl⟩ : ps1 = ps2 ∧ idx1 = idx2 :=
      Prod.ext_iff.mp (Option.some_inj.mp hrec2)
    have h4 : 1 ≤ 4 ^ k := Nat.one_le_pow k 4 (by omega)
    refine ⟨ps1, idx1, ?_, ?_, ?_, hval1, ?_, hunit2, hdots2, hdist2⟩
    · rw [subdivN, hsub]
      simpa using hrec
    · rw [hil1, hil, pow_succ]
      ring
    · rw [hpl1, hpl, hil, pow_succ]
      omega
    · rw [hil1, hil]
      omega

/-- C5: every position the icosphere generator produces — base icosahedron
vertex, subdivision midpoint, or seam duplicate — lies at distance exactly
`radius` from the origin after the final scaling step (mesh.rs:413-416),
for any nonnegative radius.  The pre-scale positions all have unit norm
(the subdivision invariant keeps every midpoint sum nonzero, so the
source's `normalize()` is well-defined), and the seam pass only copies
existing positions. -/
theorem icosphere_positions_radius (radius : ℝ) (it : ℕ) (uvs : List V2R)
    (hr : 0 ≤ radius)
    (hlen : uvs.length = 12 + 20 * (4 ^ it - 1))
    (hB : ∀ u ∈ uvs, 0 ≤ u.1 ∧ u.1 ≤ 1) :
    ∃ ps0 idx0 ms ps1 uvs1 idx1,
      subdivN it = some (ps0, idx0) ∧
      seamDetectLoop uvs idx0 = some ms ∧
      seamSplitAll (ps0, uvs, idx0) ms = some (ps1, uvs1, idx1) ∧
      (∀ p ∈ ps0, norm3 p = 1) ∧
      (∀ p ∈ ps1.map (fun q => smul3 radius q), norm3 p = radius) := by
  obtain ⟨ps0, idx0, hsub, _, hpl, hvalid, h3, hunit, _, hdist⟩ :=
    subdivN_sphere it
  have hlen' : uvs.length = ps0.length := by rw [hlen, hpl]
  obtain ⟨ms, hdet, hMsub, hMsmall, _⟩ :=
    seamDetect_props uvs hB idx0.length idx0 le_rfl h3
      (fun v hv => hlen' ▸ hvalid v hv)
  obtain ⟨ps1, uvs1, idx1, hsplit, hLp, _, _, hPpre, _, hDup, _⟩ :=
    seamSplitAll_master ps0 uvs idx0 ms hlen' hvalid h3 hdist hB
      (fun m hm => hvalid m (hMsub m hm)) hMsmall
  refine ⟨ps0, idx0, ms, ps1, uvs1, idx1, hsub, hdet, hsplit, hunit, ?_⟩
  intro p hp
  obtain ⟨q, hq, rfl⟩ := List.mem_map.mp hp
  have hq0 : q ∈ ps0 := by
    obtain ⟨j, hj⟩ := List.mem_iff_getElem?.mp hq
    have hjlt : j < ps1.length := getElem?_lt hj
    by_cases hcase : j < ps0.length
    · rw [hPpre j hcase] at hj
      exact List.getElem?_mem hj
    · have hk : j - ps0.length < ms.length := by omega
      obtain ⟨hps, _⟩ := hDup (j - ps0.length) ms[j - ps0.length]
        (List.getElem?_eq_getElem hk)
      rw [show ps0.length + (j - ps0.length) = j by omega] at hps
      rw [hps] at hj
      exact List.getElem?_mem hj
  rw [norm3_smul radius q hr, hunit q hq0, mul_one]

theorem icoUvs0R_len : icoUvs0R.length = 12 := by
  simp [icoUvs0R, icoUvs0]

theorem icoUvs0R_bounds : ∀ u ∈ icoUvs0R, 0 ≤ u.1 ∧ u.1 ≤ 1 := by
  intro u hu
  simp only [icoUvs0R, icoUvs0, List.mem_map, List.mem_cons,
    List.not_mem_nil, or_false] at hu
  obtain ⟨q, hq, rfl⟩ := hu
  rcases hq with rfl | rfl | rfl | rfl | rfl | rfl | rfl | rfl | rfl | rfl |
    rfl | rfl <;> constructor <;> push_cast <;> norm_num

theorem icosphere_positions_radius_witness :
    ∃ ps0 idx0 ms ps1 uvs1 idx1,
      subdivN 0 = some (ps0, idx0) ∧
      seamDetectLoop icoUvs0R idx0 = some ms ∧
      seamSplitAll (ps0, icoUvs0R, idx0) ms = some (ps1, uvs1, idx1) ∧
      (∀ p ∈ ps0, norm3 p = 1) ∧
      (∀ p ∈ ps1.map (fun q => smul3 (1 : ℝ) q), norm3 p = 1) :=
  icosphere_positions_radius 1 0 icoUvs0R zero_le_one
    (icoUvs0R_len.trans (by norm_num)) icoUvs0R_bounds

theorem icoVertex_isSome (ps : List V3R) (ts : List V2R) (ns : List V3R)
    (cvs : List (V3R × V3R)) (i : ℕ) (h1 : i < ps.length)
    (h2 : i < ts.length) (h3 : i < ns.length) (h4 : i < cvs.length) :
    (icoVertex ps ts ns cvs i).isSome := by
  rw [icoVertex, List.getElem?_eq_getElem h1, List.getElem?_eq_getElem h2,
    List.getElem?_eq_getElem h3, List.getElem?_eq_getElem h4]
  rfl

/-- The icosphere pipeline runs start to finish for any radius and any
iteration count, reducing to a `packMesh` call on the post-seam data; all
the well-formedness facts the packing needs come out with it. -/
theorem ico_build (radius : ℝ) (it : ℕ) (uvs : List V2R)
    (hlen : uvs.length = 12 + 20 * (4 ^ it - 1))
    (hB : ∀ u ∈ uvs, 0 ≤ u.1 ∧ u.1 ≤ 1) :
    ∃ ps1 uvs1 idx1 computed,
      idx1.length = 60 * 4 ^ it ∧
      (∀ b, icosphereMeshData radius it uvs b =
        packMesh (icoVertex (ps1.map (fun p => smul3 radius p)) uvs1 ps1
          computed) (ps1.map (fun p => smul3 radius p)).length idx1 b) ∧
      uvs1.length = ps1.length ∧ computed.length = ps1.length ∧
      (∀ i ∈ idx1, i < ps1.length) := by
  obtain ⟨ps0, idx0, hsub, hil, hpl, hvalid, h3, _, _, hdist⟩ :=
    subdivN_sphere it
  have hlen' : uvs.length = ps0.length := by rw [hlen, hpl]
  obtain ⟨ms, hdet, hMsub, hMsmall, _⟩ :=
    seamDetect_props uvs hB idx0.length idx0 le_rfl h3
      (fun v hv => hlen' ▸ hvalid v hv)
  obtain ⟨ps1, uvs1, idx1, hsplit, hLp, hLu, hLi, _, _, _, hSlot⟩ :=
    seamSplitAll_master ps0 uvs idx0 ms hlen' hvalid h3 hdist hB
      (fun m hm => hvalid m (hMsub m hm)) hMsmall
  have hval1 : ∀ i ∈ idx1, i < ps1.length := by
    intro v hv
    obtain ⟨j, hj⟩ := List.mem_iff_getElem?.mp hv
    have hjlt : j < idx0.length := hLi ▸ getElem?_lt hj
    have h0 : idx0[j]? = some idx0[j] := List.getElem?_eq_getElem hjlt
    obtain ⟨hkeep, hredir⟩ := hSlot j idx0[j] h0
    by_cases hc : idx0[j] ∈ ms ∧ HotTri uvs idx0 (j / 3)
    · obtain ⟨d, u0, hd, _, hdu, _, _⟩ := hredir hc
      obtain rfl : d = v := by
        rw [hd] at hj
        exact Option.some_inj.mp hj
      exact hLu ▸ hdu
    · obtain rfl : idx0[j] = v := by
        rw [hkeep hc] at hj
        exact Option.some_inj.mp hj
      have := hvalid _ (List.getElem_mem hjlt)
      omega
  have h31 : idx1.length % 3 = 0 := by
    rw [hLi]
    exact h3
  obtain ⟨computed, hctb, hclen⟩ :=
    ctb_total (ps1.map (fun p => smul3 radius p)) uvs1 idx1 h31
      (fun i hi => by
        rw [List.length_map]
        exact hval1 i hi)
      (by rw [List.length_map, hLu])
  refine ⟨ps1, uvs1, idx1, computed, by rw [hLi, hil], fun b => ?_, hLu,
    by rw [hclen, List.length_map], hval1⟩
  rw [icosphereMeshData, hsub]
  simp only [someBind]
  rw [hdet]
  simp only [someBind]
  rw [hsplit]
  simp only [someBind]
  rw [hctb]
  simp only [someBind]

/-- Totality of the whole generator, with the element count. -/
theorem ico_total (radius : ℝ) (it : ℕ) (uvs : List V2R) (b : Bool)
    (hlen : uvs.length = 12 + 20 * (4 ^ it - 1))
    (hB : ∀ u ∈ uvs, 0 ≤ u.1 ∧ u.1 ≤ 1) :
    ∃ md, icosphereMeshData radius it uvs b = some md ∧
      md.num_elements = 60 * 4 ^ it := by
  obtain ⟨ps1, uvs1, idx1, computed, hil, heq, hul, hcl, hval⟩ :=
    ico_build radius it uvs hlen hB
  obtain ⟨md, hmd, _, hnum, _⟩ :=
    packMesh_total
      (icoVertex (ps1.map (fun p => smul3 radius p)) uvs1 ps1 computed)
      (ps1.map (fun p => smul3 radius p)).length idx1 b
      (fun i hi => by
        rw [List.length_map]
        exact hval i hi)
      (fun i hi => icoVertex_isSome _ _ _ _ i hi
        (by rw [hul]; rw [List.length_map] at hi; exact hi)
        (by rw [List.length_map] at hi; exact hi)
        (by rw [hcl]; rw [List.length_map] at hi; exact hi))
  exact ⟨md, by rw [heq b]; exact hmd, by rw [hnum, hil]⟩

/-- C6 counterexample: `Mesh::icosphere` called with `radius = 0` does not
fail — it builds the complete degenerate mesh (60 indexed elements at
iteration 0). -/
theorem icosphere_radius_zero_counterexample :
    ∃ md, icosphereMeshData 0 0 icoUvs0R true = some md ∧
      md.num_elements = 60 := by
  obtain ⟨md, h1, h2⟩ := ico_total 0 0 icoUvs0R true
    (icoUvs0R_len.trans (by norm_num)) icoUvs0R_bounds
  exact ⟨md, h1, by rw [h2]; norm_num⟩

/-- C6 (amended): `Mesh::icosphere` (mesh.rs:262-479) performs no validation
of `radius`: for every real radius — zero and negative values included —
the generator succeeds and produces the full mesh (a degenerate point cloud
when `radius = 0`); there is no `InvalidParameter` error anywhere in the
code. -/
theorem icosphere_no_radius_validation (radius : ℝ) (it : ℕ)
    (uvs : List V2R) (b : Bool)
    (hlen : uvs.length = 12 + 20 * (4 ^ it - 1))
    (hB : ∀ u ∈ uvs, 0 ≤ u.1 ∧ u.1 ≤ 1) :
    ∃ md, icosphereMeshData radius it uvs b = some md ∧
      md.num_elements = 60 * 4 ^ it :=
  ico_total radius it uvs b hlen hB

theorem icosphere_no_radius_validation_witness :
    ∃ md, icosphereMeshData (-1) 0 icoUvs0R false = some md ∧
      md.num_elements = 60 * 4 ^ 0 :=
  icosphere_no_radius_validation (-1) 0 icoUvs0R false
    (icoUvs0R_len.trans (by norm_num)) icoUvs0R_bounds

/-- C9: the flatten property, for both generators.  The unindexed call
produces no index buffer and one vertex per index of the indexed call, and
its `k`-th vertex equals the indexed call's vertex at `indices[k]` —
attribute for attribute, since `MeshVertex` equality is componentwise. -/
theorem flatten_property (w h radius : ℝ) (it : ℕ) (uvs : List V2R)
    (hlen : uvs.length = 12 + 20 * (4 ^ it - 1))
    (hB : ∀ u ∈ uvs, 0 ≤ u.1 ∧ u.1 ≤ 1) :
    (∃ mi mu, quadMeshData w h true = some mi ∧
      quadMeshData w h false = some mu ∧
      mi.indexList = some quadIndices ∧ mu.indexList = none ∧
      mu.vertices.length = quadIndices.length ∧
      ∀ (k v : ℕ), quadIndices[k]? = some v →
        mu.vertices[k]? = mi.vertices[v]?) ∧
    (∃ mi mu idx1, icosphereMeshData radius it uvs true = some mi ∧
      icosphereMeshData radius it uvs false = some mu ∧
      mi.indexList = some idx1 ∧ mu.indexList = none ∧
      mu.vertices.length = idx1.length ∧
      ∀ (k v : ℕ), idx1[k]? = some v →
        mu.vertices[k]? = mi.vertices[v]?) := by
  constructor
  · obtain ⟨out, hout, hlenq⟩ :=
      ctb_total (quadPositions w h) quadTexCoords quadIndices (by rfl)
        (by intro i hi; fin_cases hi <;> simp [quadPositions])
        (by rfl)
    obtain ⟨mi, mu, hmi, hmu, hidx, hnone, hvl, hrel⟩ :=
      packMesh_flatten (quadVertex (quadPositions w h) quadTexCoords out)
        (quadPositions w h).length quadIndices
        (by intro i hi; fin_cases hi <;> simp [quadPositions])
        (fun i hi => quadVertex_isSome _ _ _ i hi
          (by simpa [quadPositions, quadTexCoords] using hi) (hlenq ▸ hi))
    refine ⟨mi, mu, ?_, ?_, hidx, hnone, hvl, hrel⟩
    · rw [quadMeshData, hout]
      simpa using hmi
    · rw [quadMeshData, hout]
      simpa using hmu
  · obtain ⟨ps1, uvs1, idx1, computed, _, heq, hul, hcl, hval⟩ :=
      ico_build radius it uvs hlen hB
    obtain ⟨mi, mu, hmi, hmu, hidx, hnone, hvl, hrel⟩ :=
      packMesh_flatten
        (icoVertex (ps1.map (fun p => smul3 radius p)) uvs1 ps1 computed)
        (ps1.map (fun p => smul3 radius p)).length idx1
        (fun i hi => by
          rw [List.length_map]
          exact hval i hi)
        (fun i hi => icoVertex_isSome _ _ _ _ i hi
          (by rw [hul]; rw [List.length_map] at hi; exact hi)
          (by rw [List.length_map] at hi; exact hi)
          (by rw [hcl]; rw [List.length_map] at hi; exact hi))
    exact ⟨mi, mu, idx1, by rw [heq true]; exact hmi,
      by rw [heq false]; exact hmu, hidx, hnone, hvl, hrel⟩

theorem flatten_property_witness :
    (∃ mi mu, quadMeshData 2 3 true = some mi ∧
      quadMeshData 2 3 false = some mu ∧
      mi.indexList = some quadIndices ∧ mu.indexList = none ∧
      mu.vertices.length = quadIndices.length ∧
      ∀ (k v : ℕ), quadIndices[k]? = some v →
        mu.vertices[k]? = mi.vertices[v]?) ∧
    (∃ mi mu idx1, icosphereMeshData 1 0 icoUvs0R true = some mi ∧
      icosphereMeshData 1 0 icoUvs0R false = some mu ∧
      mi.indexList = some idx1 ∧ mu.indexList = none ∧
      mu.vertices.length = idx1.length ∧
      ∀ (k v : ℕ), idx1[k]? = some v →
        mu.vertices[k]? = mi.vertices[v]?) :=
  flatten_property 2 3 1 0 icoUvs0R (icoUvs0R_len.trans (by norm_num))
    icoUvs0R_bounds

/-- C4: for every `iterations` value (in particular 0, 1, 2, 3), the
icosphere's pre-seam index list describes exactly `20 * 4^iterations`
triangles (`3 * (20 * 4^it)` indices); and for `iterations = 0` the
pre-seam mesh is the base icosahedron: exactly 12 vertices and 60 indices,
every vertex at unit distance from the origin. -/
theorem icosphere_preseam_counts (it : ℕ) :
    (∃ ps idx, subdivN it = some (ps, idx) ∧
      idx.length = 3 * (20 * 4 ^ it)) ∧
    subdivN 0 = some (basePositions, baseIndices) ∧
    basePositions.length = 12 ∧ baseIndices.length = 60 ∧
    ∀ p ∈ basePositions, norm3 p = 1 := by
  obtain ⟨ps, idx, h, h1, _, _, _⟩ := subdivN_total it
  exact ⟨⟨ps, idx, h, by rw [h1]; ring⟩, rfl, rfl, by decide,
    basePositions_unit⟩

/-- C2: the seam-resolution pass behaves as specified.  Conjunct one: under
in-range UVs the source's detection loop (mesh.rs:357-384) agrees with the
spec's "mark the vertex of the pair with the smaller `u`" rule
(`specDetectLoop`).  Conjunct two: the split loop (mesh.rs:386-403) appends,
for the `k`-th marked vertex `m`, a duplicate with the same 3D position and
the UV shifted by `+1.0` in `u`; and a slot holding vertex `v0` is
redirected to such a duplicate exactly when `v0` is marked and its triangle
has a corner with `u > 1/2` (with `v0`'s own `u` below `1/2`, that corner is
necessarily another vertex), and is left unchanged otherwise. -/
theorem seam_pass_behavior {α : Type} [LinearOrderedField α] {P : Type}
    (ps0 : List P) (uvs0 : List (α × α)) (idx0 ms : List ℕ)
    (hW1 : uvs0.length = ps0.length)
    (hW2 : ∀ v ∈ idx0, v < ps0.length)
    (hW3 : idx0.length % 3 = 0)
    (hW4 : TriDistinct idx0)
    (hB : ∀ u ∈ uvs0, 0 ≤ u.1 ∧ u.1 ≤ 1)
    (hdet : seamDetectLoop uvs0 idx0 = some ms) :
    seamDetectLoop uvs0 idx0 = specDetectLoop uvs0 idx0 ∧
    ∃ ps' uvs' idx',
      seamSplitAll (ps0, uvs0, idx0) ms = some (ps', uvs', idx') ∧
      ps'.length = ps0.length + ms.length ∧
      uvs'.length = ps'.length ∧
      idx'.length = idx0.length ∧
      (∀ (k m : ℕ), ms[k]? = some m → ps'[ps0.length + k]? = ps0[m]? ∧
        uvs'[uvs0.length + k]? =
          (uvs0[m]?).map (fun u => (u.1 + 1, u.2 + 0))) ∧
      (∀ (j v0 : ℕ), idx0[j]? = some v0 →
        (¬(v0 ∈ ms ∧ HotTri uvs0 idx0 (j / 3)) → idx'[j]? = some v0) ∧
        ((v0 ∈ ms ∧ HotTri uvs0 idx0 (j / 3)) → ∃ d u0,
          idx'[j]? = some d ∧ uvs0.length ≤ d ∧ d < uvs'.length ∧
          uvs0[v0]? = some u0 ∧ uvs'[d]? = some (u0.1 + 1, u0.2 + 0))) := by
  refine ⟨seamDetect_refines uvs0 hB idx0.length idx0 le_rfl, ?_⟩
  obtain ⟨ms', hdet', hMsub, hMsmall, _⟩ :=
    seamDetect_props uvs0 hB idx0.length idx0 le_rfl hW3
      (fun v hv => hW1 ▸ hW2 v hv)
  obtain rfl : ms = ms' := by
    rw [hdet] at hdet'
    exact Option.some_inj.mp hdet'
  obtain ⟨ps', uvs', idx', hsplit, hLp, hLu, hLi, _, _, hDup, hSlot⟩ :=
    seamSplitAll_master ps0 uvs0 idx0 ms hW1 hW2 hW3 hW4 hB
      (fun m hm => hW2 m (hMsub m hm)) hMsmall
  exact ⟨ps', uvs', idx', hsplit, hLp, hLu, hLi, hDup, hSlot⟩

/-- C1 counterexample: for a 3-vertex mesh the source's initial incidence
counter list (mesh.rs:73) is `[0, 1, 2]` — vertex `i`'s counter starts at
`i` — while the spec's stated initialization is `[1, 1, 1]`. -/
theorem counter_init_counterexample :
    trianglesIncludedInit 3 = [0, 1, 2] ∧ specCounterInit 3 = [1, 1, 1] ∧
    trianglesIncludedInit 3 ≠ specCounterInit 3 := by decide

/-- C1 (amended): in `calculate_tangents_bitangents` (mesh.rs:65-119),
vertex `j`'s incidence counter is initialized to `j` (not 1), each triangle
adds 1 to the counters of its three corners, so after the loop vertex `j`'s
counter holds `j + (number of occurrences of j in the index list)`; the
function then divides each accumulated tangent/bitangent pair by that
counter and normalizes the quotients (`avgNormalize`). -/
theorem counter_accumulation (ps : List V3R) (us : List V2R) (idx : List ℕ)
    (h3 : idx.length % 3 = 0) (hvalid : ∀ i ∈ idx, i < ps.length)
    (hus : us.length = ps.length) :
    ∃ acc cnt, calcTBloop ps us idx (initAcc ps.length)
        (trianglesIncludedInit ps.length) = some (acc, cnt) ∧
      calculate_tangents_bitangents ps us idx =
        some (avgNormalize acc cnt) ∧
      ∀ j, j < ps.length → cnt[j]? = some (j + idx.count j) := by
  obtain ⟨acc, cnt, hloop, _, _, hval⟩ :=
    calcTBloop_go ps us idx.length idx (initAcc ps.length)
      (trianglesIncludedInit ps.length) le_rfl h3 hvalid hus
  refine ⟨acc, cnt, hloop, ?_, fun j hj => ?_⟩
  · rw [calculate_tangents_bitangents, hloop]
    rfl
  · rw [hval j, trianglesIncludedInit, List.getElem?_range hj]
    rfl

theorem counter_accumulation_witness :
    ∃ acc cnt,
      calcTBloop [((0 : ℝ), 0, 0), (1, 0, 0), (0, 1, 0)]
        [((0 : ℝ), 0), (1, 0), (0, 1)] [0, 1, 2] (initAcc 3)
        (trianglesIncludedInit 3) = some (acc, cnt) ∧
      calculate_tangents_bitangents [((0 : ℝ), 0, 0), (1, 0, 0), (0, 1, 0)]
        [((0 : ℝ), 0), (1, 0), (0, 1)] [0, 1, 2] =
        some (avgNormalize acc cnt) ∧
      ∀ j, j < 3 → cnt[j]? = some (j + ([0, 1, 2] : List ℕ).count j) :=
  counter_accumulation [((0 : ℝ), 0, 0), (1, 0, 0), (0, 1, 0)]
    [((0 : ℝ), 0), (1, 0), (0, 1)] [0, 1, 2] (by decide) (by decide) rfl

/-- C10 counterexample: with one position, one UV (equal lengths) and the
index list `[0]` — every index in range — the remainder chunk of
`indices.chunks(3)` still makes the source panic at `c[1]` (mesh.rs:76-78);
the embedding returns `none`.  The claim's precondition is not sufficient:
the index count must also be a multiple of 3. -/
theorem tangents_incomplete_chunk_counterexample :
    calculate_tangents_bitangents [((0 : ℝ), 0, 0)] [((0 : ℝ), 0)] [0] =
      none ∧
    (∀ i ∈ ([0] : List ℕ), i < 1) ∧ ([0] : List ℕ).length % 3 ≠ 0 :=
  ⟨rfl, by decide, by decide⟩

/-- C10 (amended): `calculate_tangents_bitangents` (mesh.rs:65-119) indexes
positions and UVs by each index with no bounds guard.  Under the
precondition that every index is in range, the UV list has the positions
list's length, AND the index count is a multiple of 3 (the claim omits this
last condition, without which the remainder chunk panics), the function is
total and yields one (tangent, bitangent) pair per position; with any index
out of range it panics (`none`). -/
theorem tangents_bounds (ps : List V3R) (us : List V2R) (idx : List ℕ)
    (hus : us.length = ps.length) :
    (idx.length % 3 = 0 → (∀ i ∈ idx, i < ps.length) →
      ∃ out, calculate_tangents_bitangents ps us idx = some out ∧
        out.length = ps.length) ∧
    ((∃ i ∈ idx, ps.length ≤ i) →
      calculate_tangents_bitangents ps us idx = none) :=
  ⟨fun h3 hvalid => ctb_total ps us idx h3 hvalid hus,
   fun hbad => ctb_none ps us idx hus hbad⟩

theorem tangents_bounds_witness :
    ((([0, 1, 2] : List ℕ).length % 3 = 0 →
      (∀ i ∈ ([0, 1, 2] : List ℕ), i < 3) →
      ∃ out, calculate_tangents_bitangents
        [((0 : ℝ), 0, 0), (1, 0, 0), (0, 1, 0)]
        [((0 : ℝ), 0), (1, 0), (0, 1)] [0, 1, 2] = some out ∧
        out.length = 3) ∧
    ((∃ i ∈ ([0, 1, 2] : List ℕ), 3 ≤ i) →
      calculate_tangents_bitangents
        [((0 : ℝ), 0, 0), (1, 0, 0), (0, 1, 0)]
        [((0 : ℝ), 0), (1, 0), (0, 1)] [0, 1, 2] = none)) :=
  tangents_bounds [((0 : ℝ), 0, 0), (1, 0, 0), (0, 1, 0)]
    [((0 : ℝ), 0), (1, 0), (0, 1)] [0, 1, 2] rfl

/-- C8 counterexample: `Mesh::quad` called with negative `width` and
`height` still succeeds and builds the full 4-vertex, 6-index geometry —
there is no parameter validation anywhere in mesh.rs:128-211. -/
theorem quad_negative_counterexample :
    ∃ md, quadMeshData (-1) (-2) true = some md ∧ md.num_elements = 6 ∧
      md.vertices.length = 4 := by
  obtain ⟨md, hmd, _, hnum, hvl⟩ := quad_total (-1) (-2) true
  exact ⟨md, hmd, hnum, by simpa using hvl⟩

/-- C8 (amended): `Mesh::quad` (mesh.rs:128-211) performs no validation of
`width` or `height`: for every real pair, including zero and negative
values, it succeeds and returns the fixed 4-corner geometry with 6 indices
(or 6 flattened vertices when unindexed). -/
theorem quad_no_validation (w h : ℝ) (b : Bool) :
    ∃ md, quadMeshData w h b = some md ∧
      md.indexList = (if b then some quadIndices else none) ∧
      md.num_elements = 6 ∧
      md.vertices.length = (if b then 4 else 6) :=
  quad_total w h b

/-- C7 counterexample: `Mesh::icosphere` with `iterations = 7` (beyond the
claim's "sane bound" of 6) is not rejected: the subdivision loop runs to
completion and produces 983040 indices. -/
theorem icosphere_iterations_counterexample :
    ∃ ps idx, subdivN 7 = some (ps, idx) ∧ idx.length = 983040 := by
  obtain ⟨ps, idx, h, h1, _⟩ := subdivN_total 7
  exact ⟨ps, idx, h, by rw [h1]; norm_num⟩

/-- C7 (amended): there is no iteration bound check anywhere in
`Mesh::icosphere` (mesh.rs:262-479): for every `iterations` value the
subdivision loop succeeds, producing exactly `60 * 4^iterations` indices
and `12 + 20 * (4^iterations - 1)` positions. -/
theorem icosphere_no_iteration_bound (it : ℕ) :
    ∃ ps idx, subdivN it = some (ps, idx) ∧ idx.length = 60 * 4 ^ it ∧
      ps.length = 12 + 20 * (4 ^ it - 1) := by
  obtain ⟨ps, idx, h, h1, h2, _, _⟩ := subdivN_total it
  exact ⟨ps, idx, h, h1, h2⟩

section

set_option allowUnsafeReducibility true
attribute [local semireducible] Rat.add Rat.sub Rat.mul Rat.div Rat.inv
set_option synthInstance.maxSize 2000
set_option maxRecDepth 4000

theorem seam_split_idempotent_witness :
    ∃ ps' uvs' idx',
      seamSplitAll (List.replicate 12 (), icoUvs0, baseIndices) icoMarks0 =
        some (ps', uvs', idx') ∧
      seamDetectLoop uvs' idx' = some [] :=
  seam_split_idempotent (List.replicate 12 ()) icoUvs0 baseIndices icoMarks0
    (by decide) (by decide) (by decide) (by decide) (by decide) (by decide)
    (by decide)

theorem seam_pass_behavior_witness :
    seamDetectLoop icoUvs0 baseIndices = specDetectLoop icoUvs0 baseIndices ∧
    ∃ ps' uvs' idx',
      seamSplitAll (List.replicate 12 (), icoUvs0, baseIndices) icoMarks0 =
        some (ps', uvs', idx') ∧
      ps'.length = 12 + icoMarks0.length ∧
      uvs'.length = ps'.length ∧
      idx'.length = baseIndices.length ∧
      (∀ (k m : ℕ), icoMarks0[k]? = some m →
        ps'[12 + k]? = (List.replicate 12 ())[m]? ∧
        uvs'[12 + k]? =
          (icoUvs0[m]?).map (fun u => (u.1 + 1, u.2 + 0))) ∧
      (∀ (j v0 : ℕ), baseIndices[j]? = some v0 →
        (¬(v0 ∈ icoMarks0 ∧ HotTri icoUvs0 baseIndices (j / 3)) →
          idx'[j]? = some v0) ∧
        ((v0 ∈ icoMarks0 ∧ HotTri icoUvs0 baseIndices (j / 3)) → ∃ d u0,
          idx'[j]? = some d ∧ 12 ≤ d ∧ d < uvs'.length ∧
          icoUvs0[v0]? = some u0 ∧
          uvs'[d]? = some (u0.1 + 1, u0.2 + 0))) :=
  seam_pass_behavior (List.replicate 12 ()) icoUvs0 baseIndices icoMarks0
    (by decide) (by decide) (by decide) (by decide) (by decide) (by decide)

end

end RustyCage
